import Mathlib

/-!
Verification of the Cerebros workspace engine against its specification.

This file gives a shallow embedding, in Lean 4, of the parts of the
Cerebros source that the specification's claims are about:

* `app/commands/validate.py` — schema-name resolution, `$ref` rewriting,
  and the batch validation loop;
* `app/commands/search.py`   — the line-heuristic search scan;
* `app/browse/formatting.py` — the `_highlight` marker;
* `app/browse/app.py`        — `_scan_for_term` and the tree-expansion
  handler `on_tree_node_expanded`;
* `app/browse/tree.py`       — `build_filtered_tree`.

Python strings are modelled as `List Char` (`PyStr`); the ASCII fragment of
Python's `str.lower`, `str.strip`, `str.split`, `in`/`find`, `startswith`
and `endswith` is reproduced by the `py*` helpers below.  Filesystem access
(`os.listdir`, `os.path.isdir`, `open(...).read()`) is passed in as an
explicit environment, and the external `jsonschema` validator is an oracle
parameter: the claims under study are about the code around those calls,
not inside them.
-/

namespace Cerebros

/-- A Python string, modelled as its list of characters. -/
abbrev PyStr := List Char

/-- Python's default `str.strip` whitespace set (ASCII fragment):
space, tab, newline, carriage return, vertical tab, form feed. -/
def pyIsSpace (c : Char) : Bool :=
  c == ' ' || c == '\t' || c == '\n' || c == '\r' || c.toNat == 11 || c.toNat == 12

/-- `s.lstrip()`. -/
def pyLStrip (s : PyStr) : PyStr := s.dropWhile pyIsSpace

/-- `s.rstrip()`. -/
def pyRStrip (s : PyStr) : PyStr := (s.reverse.dropWhile pyIsSpace).reverse

/-- `s.strip()`. -/
def pyStrip (s : PyStr) : PyStr := pyRStrip (pyLStrip s)

/-- `s.lower()` (ASCII fragment, character by character). -/
def pyLower (s : PyStr) : PyStr := s.map Char.toLower

/-- `s.startswith(pat)`. -/
def pyStartsWith (s pat : PyStr) : Bool := pat.isPrefixOf s

/-- `s.endswith(pat)`. -/
def pyEndsWith (s pat : PyStr) : Bool := pat.isSuffixOf s

/-- `hay.find(needle)`: index of the leftmost occurrence of `needle` in
`hay`, or `none` where Python returns `-1`.  (Python's `find` on an empty
needle returns `0`; this is matched by the first branch.) -/
def pyFind : PyStr → PyStr → Option Nat
  | [], needle => if needle = [] then some 0 else none
  | c :: t, needle =>
    if needle.isPrefixOf (c :: t) then some 0 else (pyFind t needle).map (· + 1)

/-- `needle in hay` (substring containment). -/
def pyContains (hay needle : PyStr) : Bool := (pyFind hay needle).isSome

/-- `s.split(sep)` for a one-character separator. -/
def pySplitChar (sep : Char) : PyStr → List PyStr
  | [] => [[]]
  | c :: rest =>
    let r := pySplitChar sep rest
    if c = sep then [] :: r
    else
      match r with
      | [] => [[c]]
      | h :: t => (c :: h) :: t

/-- `line.split(":", 1)` for a line known to contain a colon: the pair of
the text before the first `':'` and the text after it. -/
def pySplitColonOnce : PyStr → PyStr × PyStr
  | [] => ([], [])
  | c :: rest =>
    if c = ':' then ([], rest)
    else
      let p := pySplitColonOnce rest
      (c :: p.1, p.2)

/-- `os.path.basename` for POSIX paths: the part after the last `'/'`. -/
def pyBasename (p : PyStr) : PyStr := (pySplitChar '/' p).getLastD []

/-- `os.path.join(a, b)` for POSIX paths (one-step form). -/
def pyJoin (a b : PyStr) : PyStr :=
  if pyStartsWith b ['/'] then b
  else if a = [] ∨ a.getLastD ' ' = '/' then a ++ b
  else a ++ '/' :: b

/-! ## `app/commands/validate.py`: schema-name resolution (`get_schema_name_from_filename`) -/

/-- `get_schema_name_from_filename` (validate.py, lines 42–48): split the
basename on `'.'`; with at least three parts return `parts[-2]`, otherwise
`None`. -/
def get_schema_name_from_filename (filename : PyStr) : Option PyStr :=
  let base := pyBasename filename
  let parts := pySplitChar '.' base
  if parts.length ≥ 3 then some (parts.getD (parts.length - 2) []) else none

/-! ## `app/commands/search.py`: the line-heuristic scan (`run`, lines 63–84) -/

/-- The loop state of the scan in `search.py`: the `last_key` context and
the `matches` list accumulated so far, each entry `(line number, property, value)`. -/
structure ScanState where
  lastKey : Option PyStr
  found : List (Nat × Option PyStr × PyStr)
  deriving Repr, DecidableEq

/-- One iteration of the scan loop of `search.py` (lines 66–84) on line
number `idx` with content `line`.  `term` is the already-lowercased search
term. -/
def scanLine (term : PyStr) (st : ScanState) (idx : Nat) (line : PyStr) : ScanState :=
  let stripped := pyStrip line
  if stripped = [] ∨ pyStartsWith stripped ['#'] then st
  else if line.contains ':' then
    let key := pyStrip (pySplitColonOnce line).1
    let val := pyStrip (pySplitColonOnce line).2
    if val = [] then { st with lastKey := some key }
    else if pyContains (pyLower val) term then
      { lastKey := none, found := st.found ++ [(idx, some key, val)] }
    else { st with lastKey := none }
  else if pyStartsWith stripped ['-', ' '] then
    let item := pyStrip (stripped.drop 2)
    if pyContains (pyLower item) term then
      { st with found := st.found ++ [(idx, st.lastKey, item)] }
    else st
  else st

/-- The scan loop over the numbered lines of one file (Python's
`enumerate(lines, 1)`). -/
def scanLinesFrom (term : PyStr) : ScanState → Nat → List PyStr → ScanState
  | st, _, [] => st
  | st, idx, l :: ls => scanLinesFrom term (scanLine term st idx l) (idx + 1) ls

/-- `Scan(file, term)` of the specification: the matches the `search.py`
loop produces for one file.  The term is lowercased once before the loop
(`term = ns.term.lower()`). -/
def scan_matches (term : PyStr) (lines : List PyStr) : List (Nat × Option PyStr × PyStr) :=
  (scanLinesFrom (pyLower term) ⟨none, []⟩ 1 lines).found

/-! ## `app/browse/formatting.py`: `_highlight` (lines 8–24) -/

/-- The rich-markup opening marker `_highlight` inserts. -/
def markOpen : PyStr := "[bold red]".data

/-- The rich-markup closing marker `_highlight` inserts. -/
def markClose : PyStr := "[/bold red]".data

/-- The `while True` loop of `_highlight`, on the part of `value` from the
current `start` onwards.  The source computes `lower_val = value.lower()`
once and searches from an index; since lowering is per character, lowering
the remaining suffix each round is the same computation.  The lowered term
is passed in head/tail form `c0 :: rest`, which is never empty because
`_highlight` returns early on an empty term. -/
def hlLoop (c0 : Char) (rest : PyStr) (val : PyStr) : PyStr :=
  match h : pyFind (pyLower val) (c0 :: rest) with
  | none => val
  | some i =>
      val.take i ++ markOpen ++ (val.drop i).take (rest.length + 1) ++ markClose
        ++ hlLoop c0 rest ((val.drop i).drop (rest.length + 1))
  termination_by val.length
  decreasing_by
    cases val with
    | nil => simp [pyLower, pyFind] at h
    | cons a as =>
      simp only [List.length_drop, List.length_cons]
      omega

/-- `_highlight(value, term)` (formatting.py, lines 8–24): no marking for an
empty term, otherwise mark each occurrence found left to right. -/
def _highlight (value term : PyStr) : PyStr :=
  match term with
  | [] => value
  | c :: rest => hlLoop (Char.toLower c) (pyLower rest) value

/-- Specification-side: the gaps (unmarked distances) before the successive
non-overlapping case-insensitive occurrences of the (lowered, nonempty)
term in the lowered text, scanning left to right and advancing strictly
past each matched span. -/
def greedyGaps (c0 : Char) (rest : PyStr) (lval : PyStr) : List Nat :=
  match h : pyFind lval (c0 :: rest) with
  | none => []
  | some i => i :: greedyGaps c0 rest (lval.drop (i + (rest.length + 1)))
  termination_by lval.length
  decreasing_by
    cases lval with
    | nil => simp [pyFind] at h
    | cons a as =>
      simp only [List.length_drop, List.length_cons]
      omega

/-- Specification-side: wrap the spans of length `n` described by a gap
list in the highlight markers, leaving everything else unchanged. -/
def renderGaps (n : Nat) : List Nat → PyStr → PyStr
  | [], val => val
  | g :: gs, val =>
      val.take g ++ markOpen ++ (val.drop g).take n ++ markClose
        ++ renderGaps n gs ((val.drop g).drop n)

/-- Specification-side: the absolute start positions described by a gap
list for spans of length `n`, starting from `base`. -/
def gapPositions (n : Nat) : List Nat → Nat → List Nat
  | [], _ => []
  | g :: gs, base => (base + g) :: gapPositions n gs (base + g + n)

/-! ## `app/commands/validate.py`: `rewrite_refs` (lines 4–21) -/

mutual
/-- A JSON document as `json.load` yields it: strings, atoms (numbers,
booleans, `null`, with their Python truthiness), objects and arrays. -/
inductive JValue where
  | str (s : PyStr)
  | atom (truthy : Bool)
  | obj (fields : JObj)
  | arr (elems : JArr)

/-- The key/value pairs of a JSON object, in insertion order. -/
inductive JObj where
  | nil
  | cons (k : PyStr) (v : JValue) (rest : JObj)

/-- The elements of a JSON array. -/
inductive JArr where
  | nil
  | cons (v : JValue) (rest : JArr)
end

mutual
/-- `rewrite_refs` (validate.py, lines 4–21): recursively rewrite every
relative `$ref` string value (one starting with neither `http` nor
`file://`) by prefixing `schema_dir_uri`; lists and non-`$ref` entries are
rewritten recursively, everything else is returned unchanged. -/
def rewrite_refs (o : JValue) (schema_dir_uri : PyStr) : JValue :=
  match o with
  | .obj fields => .obj (rewriteRefsObj fields schema_dir_uri)
  | .arr elems => .arr (rewriteRefsArr elems schema_dir_uri)
  | other => other

/-- The dict branch of `rewrite_refs`, pair by pair. -/
def rewriteRefsObj (fields : JObj) (schema_dir_uri : PyStr) : JObj :=
  match fields with
  | .nil => .nil
  | .cons k v rest =>
    let v2 :=
      if k = "$ref".data then
        match v with
        | .str s =>
          if !(pyStartsWith s "http".data) && !(pyStartsWith s "file://".data) then
            JValue.str (schema_dir_uri ++ s)
          else JValue.str s
        | _ => rewrite_refs v schema_dir_uri
      else rewrite_refs v schema_dir_uri
    .cons k v2 (rewriteRefsObj rest schema_dir_uri)

/-- The list branch of `rewrite_refs`. -/
def rewriteRefsArr (elems : JArr) (schema_dir_uri : PyStr) : JArr :=
  match elems with
  | .nil => .nil
  | .cons v rest => .cons (rewrite_refs v schema_dir_uri) (rewriteRefsArr rest schema_dir_uri)
end

/-! ## `app/commands/validate.py`: the batch loop `main` (lines 103–125) -/

/-- Python truthiness of a JSON value (`if not schema`). -/
def pyTruthy : JValue → Bool
  | .str s => !s.isEmpty
  | .atom t => t
  | .obj .nil => false
  | .obj _ => true
  | .arr .nil => false
  | .arr _ => true

/-- The environment `main` runs against: `load_schema` reads
`SCHEMA_DIR/<name>.json` (`none` when the file is missing), and
`validate_result` is the outcome of `validate_yaml_file`'s call into the
external `jsonschema` validator for a given file and schema. -/
structure VEnv where
  load_schema : PyStr → Option JValue
  validate_result : PyStr → JValue → Bool × Option PyStr

/-- The body of the loop of `main` (validate.py, lines 106–119) for one
file: the `(yaml_file, valid, error)` triple appended to `results`. -/
def validate_one (env : VEnv) (yaml_file : PyStr) : PyStr × Bool × Option PyStr :=
  match get_schema_name_from_filename yaml_file with
  | none => (yaml_file, false, some "Could not determine schema name".data)
  | some name =>
    -- `if not schema_name` is also true for an empty string
    if name = [] then (yaml_file, false, some "Could not determine schema name".data)
    else
      match env.load_schema name with
      | none => (yaml_file, false, some ("Schema ".data ++ name ++ " not found".data))
      | some schema =>
        -- `if not schema` is true for a missing or falsy document
        if !(pyTruthy schema) then
          (yaml_file, false, some ("Schema ".data ++ name ++ " not found".data))
        else
          let r := env.validate_result yaml_file schema
          (yaml_file, r.1, r.2)

/-- The accumulation loop of `main` (validate.py, lines 105–119): each
iteration appends one result and moves on (`continue`), so the loop is a
left fold. -/
def validate_main (env : VEnv) (yaml_files : List PyStr) : List (PyStr × Bool × Option PyStr) :=
  yaml_files.foldl (fun results yf => results ++ [validate_one env yf]) []

/-- One printed line of the report loop of `main` (lines 121–125). -/
inductive VLine where
  | ok (path : PyStr)
  | fail (path : PyStr) (error : Option PyStr)
  deriving DecidableEq

/-- The report loop of `main` (validate.py, lines 121–125): one line per
collected result, in order. -/
def validate_report (results : List (PyStr × Bool × Option PyStr)) : List VLine :=
  results.map (fun r => if r.2.1 then VLine.ok r.1 else VLine.fail r.1 r.2.2)

/-! ## `app/commands/search.py`: the batch loop of `run` (lines 56–109) -/

/-- Console output of the search batch, abstracted: the warning for an
unreadable file, the per-file header, one line per match, and the final
no-matches message. -/
inductive SearchEvent where
  | warn (path : PyStr)
  | fileHeader (path : PyStr)
  | matchLine (lineno : Nat) (property : Option PyStr) (value : PyStr)
  | noMatches (term : PyStr)
  deriving DecidableEq

/-- One iteration of the file loop of `run` (search.py, lines 56–107) on
the console-output-so-far and `found_any` accumulator: an unreadable file
(`none` models the raised read error, caught at lines 60–61) emits a
warning and is skipped; a readable one is scanned and reported if it has
matches, setting `found_any`. -/
def searchStep (lterm : PyStr) (acc : List SearchEvent × Bool)
    (f : PyStr × Option (List PyStr)) : List SearchEvent × Bool :=
  match f.2 with
  | none => (acc.1 ++ [SearchEvent.warn f.1], acc.2)
  | some lines =>
    let ms := (scanLinesFrom lterm ⟨none, []⟩ 1 lines).found
    if ms = [] then acc
    else
      (acc.1 ++ SearchEvent.fileHeader f.1
          :: ms.map (fun m => SearchEvent.matchLine m.1 m.2.1 m.2.2),
        true)

/-- The file loop of `run` (search.py, lines 54–109): fold `searchStep`
over the discovered files, then report when nothing matched. -/
def search_run (term : PyStr) (files : List (PyStr × Option (List PyStr))) : List SearchEvent :=
  let out := files.foldl (searchStep (pyLower term)) ([], false)
  if out.2 then out.1 else out.1 ++ [SearchEvent.noMatches term]

/-- Specification-side: the events the batch emits for one file in
isolation. -/
def search_file_events (term : PyStr) (f : PyStr × Option (List PyStr)) : List SearchEvent :=
  match f.2 with
  | none => [SearchEvent.warn f.1]
  | some lines =>
    let ms := (scanLinesFrom (pyLower term) ⟨none, []⟩ 1 lines).found
    if ms = [] then []
    else SearchEvent.fileHeader f.1
        :: ms.map (fun m => SearchEvent.matchLine m.1 m.2.1 m.2.2)

/-- Specification-side: whether one file contributes a match. -/
def search_found (term : PyStr) (f : PyStr × Option (List PyStr)) : Bool :=
  match f.2 with
  | none => false
  | some lines => !((scanLinesFrom (pyLower term) ⟨none, []⟩ 1 lines).found.isEmpty)

/-! ## `app/browse/app.py`: `BrowseApp._scan_for_term` (lines 127–140) -/

/-- One file of `_scan_for_term` (app.py, lines 130–140): skip a
non-`.yml` name, join the path, skip it on a read error, and yield it when
the lowered content contains the lowered term.  The `os.walk` result is
passed to `scan_for_term` as a list of `(root, files)` pairs in traversal
order. -/
def scanTermStep (term_lower : PyStr) (read_file : PyStr → Option PyStr)
    (root : PyStr) (acc : List PyStr) (f : PyStr) : List PyStr :=
  if !(pyEndsWith f ".yml".data) then acc
  else
    let path := pyJoin root f
    match read_file path with
    | none => acc
    | some text =>
      if pyContains (pyLower text) term_lower then acc ++ [path] else acc

/-- The walk loop of `_scan_for_term`: inner loop over one directory's
files, outer loop over the walk. -/
def scan_for_term (term : PyStr) (walk : List (PyStr × List PyStr))
    (read_file : PyStr → Option PyStr) : List PyStr :=
  let term_lower := pyLower term
  walk.foldl (fun acc rf => rf.2.foldl (scanTermStep term_lower read_file rf.1) acc) []

/-! ## Python's `sorted` on strings -/

/-- Python's string `<=`: lexicographic comparison by code point. -/
def strLe : PyStr → PyStr → Bool
  | [], _ => true
  | _ :: _, [] => false
  | a :: as, b :: bs =>
    if a.toNat < b.toNat then true
    else if b.toNat < a.toNat then false
    else strLe as bs

/-- `strLe` as a relation, for sortedness statements. -/
def strLeP (a b : PyStr) : Prop := strLe a b = true

/-- Insert into a `le`-sorted list, keeping earlier elements first among
equals (Python's `sorted` is stable). -/
def pyInsertBy (le : α → α → Bool) (x : α) : List α → List α
  | [] => [x]
  | y :: ys => if le x y then x :: y :: ys else y :: pyInsertBy le x ys

/-- Python's built-in `sorted`, as a stable insertion sort. -/
def pySortedBy (le : α → α → Bool) : List α → List α
  | [] => []
  | x :: xs => pyInsertBy le x (pySortedBy le xs)

/-- `sorted` on a list of strings. -/
def pySorted (l : List PyStr) : List PyStr := pySortedBy strLe l

/-! ## `app/browse/app.py`: `on_tree_node_expanded` (lines 78–104) -/

/-- The `data` dict a Textual tree node carries in browse: either
`{"path": ..., "is_dir": ...}` or `{"placeholder": True}`. -/
inductive NodeData where
  | real (path : PyStr) (isDir : Bool)
  | placeholder
  deriving DecidableEq

/-- A Textual tree node: its data and its ordered children. -/
inductive BNode where
  | node (data : NodeData) (children : List BNode)

/-- The data of a node. -/
def BNode.data : BNode → NodeData
  | .node d _ => d

/-- The children of a node. -/
def BNode.children : BNode → List BNode
  | .node _ c => c

/-- Whether a node is the synthetic placeholder child
(`data={"placeholder": True}`). -/
def isPlaceholderNode (n : BNode) : Bool :=
  match n with
  | .node NodeData.placeholder _ => true
  | _ => false

/-- The filesystem as the browse TUI sees it: `os.listdir` (with `none`
for a raised `OSError`) and `os.path.isdir`. -/
structure BrowseFS where
  listdir : PyStr → Option (List PyStr)
  isdir : PyStr → Bool

/-- The child node built for one directory entry (app.py, lines 96–104;
the same shape `build_tree` in tree.py, lines 18–27, produces): a
subdirectory gets exactly one placeholder child, a file gets none. -/
def childFor (fs : BrowseFS) (path entry : PyStr) : BNode :=
  let full := pyJoin path entry
  if fs.isdir full then BNode.node (NodeData.real full true) [BNode.node NodeData.placeholder []]
  else BNode.node (NodeData.real full false) []

/-- `BrowseApp.on_tree_node_expanded` (app.py, lines 78–104), as the
transformation of the expanded node: return early unless the node carries
a non-empty path and is a directory; remove every placeholder child; if no
children remain, list the directory (returning on an `OSError`, with the
placeholders already removed) and append its sorted entries. -/
def on_tree_node_expanded (fs : BrowseFS) (n : BNode) : BNode :=
  match n with
  | .node NodeData.placeholder _ => n
  | .node (NodeData.real path isDir) children =>
    if path = [] ∨ isDir = false then n
    else
      let kids := children.filter (fun c => !(isPlaceholderNode c))
      if kids.isEmpty then
        match fs.listdir path with
        | none => BNode.node (NodeData.real path isDir) kids
        | some entries =>
          BNode.node (NodeData.real path isDir)
            (kids ++ (pySorted entries).map (childFor fs path))
      else BNode.node (NodeData.real path isDir) kids

/-! ## `app/browse/tree.py`: `build_filtered_tree` (lines 37–89)

Paths are modelled as lists of segments (`SegPath`): the POSIX path
`/a/b/c` is `[a, b, c]`.  On the normalized absolute paths this function
receives (it applies `os.path.abspath` to each input), `os.path.join`
appends one segment, `os.path.dirname` drops the last, and
`os.path.relpath`/`str.startswith` act segment-wise as below;
`str.startswith` on such paths agrees with segment-prefix except when one
segment merely extends another textually (`/a/b` vs `/a/bc`), a case the
theorems' hypotheses rule out. -/

/-- A normalized absolute POSIX path, as its list of segments. -/
abbrev SegPath := List PyStr

/-- The element-wise `os.path.commonprefix` of two segment lists. -/
def commonPrefixLen : SegPath → SegPath → Nat
  | a :: as, b :: bs => if a = b then commonPrefixLen as bs + 1 else 0
  | _, _ => 0

/-- `os.path.relpath(path, start)` on normalized absolute paths: `..`
segments for the uncommon part of `start`, then the uncommon part of
`path`.  (The empty result renders as `.`; see `mkDirChildren`.) -/
def relpathSegs (path start : SegPath) : List PyStr :=
  List.replicate (start.length - commonPrefixLen path start) "..".data
    ++ path.drop (commonPrefixLen path start)

/-- `dir_children.setdefault(k, set()).add(c)`: an insertion-ordered map
from a directory to the set of its children, the set modelled as a
duplicate-free list. -/
def addChildEntry (m : List (SegPath × List SegPath)) (k c : SegPath) :
    List (SegPath × List SegPath) :=
  match m with
  | [] => [(k, [c])]
  | (k2, cs) :: rest =>
    if k2 = k then (k2, if cs.contains c then cs else cs ++ [c]) :: rest
    else (k2, cs) :: addChildEntry rest k c

/-- Look a key up in the `dir_children` map. -/
def childrenOf (m : List (SegPath × List SegPath)) (k : SegPath) : List SegPath :=
  match m with
  | [] => []
  | (k2, cs) :: rest => if k2 = k then cs else childrenOf rest k

/-- The inner chain walk of the `dir_children` precomputation (tree.py,
lines 58–62): `next_dir = join(cur_dir, part)`, record it under `cur_dir`,
move down. -/
def chainStep (acc : List (SegPath × List SegPath) × SegPath) (part : PyStr) :
    List (SegPath × List SegPath) × SegPath :=
  let next_dir := acc.2 ++ [part]
  (addChildEntry acc.1 acc.2 next_dir, next_dir)

/-- One matched file of the `dir_children` precomputation (tree.py, lines
52–64): skip a path not under the root, walk its relative parts, and
record the file under its parent directory. -/
def mdcStep (start_path : SegPath) (m : List (SegPath × List SegPath))
    (file_path : SegPath) : List (SegPath × List SegPath) :=
  if !(start_path.isPrefixOf file_path) then m
  else
    let rel := relpathSegs file_path start_path
    let parts := if rel.isEmpty then [".".data] else rel
    let walk := parts.dropLast.foldl chainStep (m, start_path)
    addChildEntry walk.1 walk.2 file_path

/-- The `dir_children` precomputation of `build_filtered_tree` (tree.py,
lines 50–64): for each matched path under the root, record the directory
chain from the root down to it and the path itself under its parent. -/
def mkDirChildren (start_path : SegPath) (matched : List SegPath) :
    List (SegPath × List SegPath) :=
  matched.foldl (mdcStep start_path) []

/-- One node of the filtered tree, flattened: the `data` dict plus the
parent it was added under.  `build_filtered_tree` never sets a
placeholder. -/
structure FNode where
  path : SegPath
  parent : SegPath
  isDir : Bool
  placeholder : Bool
  deriving DecidableEq

/-- The filtered tree as the list of nodes added under the root, in
insertion order.  (The root itself carries `{"path": start, "is_dir":
True}` and is not listed.) -/
structure FTree where
  nodes : List FNode
  deriving DecidableEq

/-- Whether `node_map` has an entry for `p` other than the root: exactly
the directory nodes created so far. -/
def hasDirNode (t : FTree) (p : SegPath) : Bool :=
  t.nodes.any (fun n => n.isDir && n.path == p)

/-- Specification-side: the pair `(k, c)` that the `dir_children`
precomputation records for some matched file `fp`: `c` is the prefix of
`fp` of a length `l` strictly greater than the root's, and `k` its
immediate parent prefix. -/
def pairIn (start_path : SegPath) (matched : List SegPath) (k c : SegPath) : Prop :=
  ∃ fp ∈ matched, ∃ n, start_path.length < n ∧ n ≤ fp.length ∧
    k = fp.take (n - 1) ∧ c = fp.take n

/-- Specification-side: `r` is an ancestor-chain directory of some matched
file, strictly between the root and the file. -/
def chainDir (start_path : SegPath) (matched : List SegPath) (r : SegPath) : Prop :=
  ∃ fp ∈ matched, start_path.isPrefixOf r = true ∧ start_path.length < r.length ∧
    r.isPrefixOf fp = true ∧ r ≠ fp

/-- Well-formedness of the filtered tree under construction: every node
hangs under its path's parent directory and carries no placeholder, and
every directory node lies strictly below the root with its parent node
present (or the root itself). -/
def WfTree (start_path : SegPath) (t : FTree) : Prop :=
  ∀ n ∈ t.nodes, n.parent = n.path.dropLast ∧ n.placeholder = false ∧
    (n.isDir = true →
      start_path.isPrefixOf n.path = true ∧ start_path.length < n.path.length ∧
      (n.path.dropLast = start_path ∨ hasDirNode t n.path.dropLast = true))

/-- Invariant carried through the construction of the filtered tree: the
tree is well-formed, every directory present is an ancestor-chain
directory of a matched file, and every file node is a matched file. -/
def BuildInv (start_path : SegPath) (matched : List SegPath) (t : FTree) : Prop :=
  WfTree start_path t
  ∧ (∀ r, hasDirNode t r = true → chainDir start_path matched r)
  ∧ (∀ n ∈ t.nodes, n.isDir = false → n.path ∈ matched)

/-- `ensure_node` (tree.py, lines 68–78): return if the path is already in
`node_map`, otherwise ensure the parent and append a directory node under
it.  (On a path with no parent Python would recurse without bound; that
branch returns unchanged and is unreachable under this file's
hypotheses.) -/
def ensure_node (start_path : SegPath) (t : FTree) (p : SegPath) : FTree :=
  if p = start_path ∨ hasDirNode t p then t
  else
    match hp : p with
    | [] => t
    | a :: rest =>
      let t2 := ensure_node start_path t (a :: rest).dropLast
      ⟨t2.nodes ++ [⟨a :: rest, (a :: rest).dropLast, true, false⟩]⟩
  termination_by p.length
  decreasing_by subst hp; simp [List.length_dropLast]

/-- The joined string of a segment path (for the `sorted(children)` order;
the claims under study are order-insensitive). -/
def joinSegs : SegPath → PyStr
  | [] => []
  | [s] => s
  | s :: rest => s ++ '/' :: joinSegs rest

/-- `sorted` over full path strings, on segment paths. -/
def sortSegPaths (l : List SegPath) : List SegPath :=
  pySortedBy (fun a b => strLe (joinSegs a) (joinSegs b)) l

/-- One sorted child of a `dir_children` entry (tree.py, lines 83–89): a
directory goes through `ensure_node`, anything else becomes a file leaf
under the entry's parent node. -/
def childStep (start_path : SegPath) (isdir : SegPath → Bool) (parentKey : SegPath)
    (t : FTree) (c : SegPath) : FTree :=
  if isdir c then ensure_node start_path t c
  else ⟨t.nodes ++ [⟨c, parentKey, false, false⟩]⟩

/-- One `dir_children` entry (tree.py, lines 81–89): ensure the parent
node, then add each sorted child. -/
def buildStep (start_path : SegPath) (isdir : SegPath → Bool) (t : FTree)
    (kc : SegPath × List SegPath) : FTree :=
  (sortSegPaths kc.2).foldl (childStep start_path isdir kc.1)
    (ensure_node start_path t kc.1)

/-- `build_filtered_tree` (tree.py, lines 37–89): precompute
`dir_children`, then process each parent's entry in insertion order. -/
def build_filtered_tree (start_path : SegPath) (matched_files : List SegPath)
    (isdir : SegPath → Bool) : FTree :=
  (mkDirChildren start_path matched_files).foldl (buildStep start_path isdir) ⟨[]⟩

/-- Specification-side: whether `_scan_for_term` keeps the file `f` of
directory `root`, and under which path. -/
def scanTermKeep (term_lower : PyStr) (read_file : PyStr → Option PyStr)
    (root f : PyStr) : Option PyStr :=
  if pyEndsWith f ".yml".data = false then none
  else
    match read_file (pyJoin root f) with
    | none => none
    | some text =>
      if pyContains (pyLower text) term_lower then some (pyJoin root f) else none

/-! ## Concrete sample environments (used by witness theorems) -/

/-- A sample validation environment: no schema file exists. -/
def sampleVEnv : VEnv :=
  ⟨fun _ => none, fun _ _ => (true, none)⟩

/-- A sample file reader for `scan_for_term`. -/
def sampleRead : PyStr → Option PyStr :=
  fun p => if p = "r/x.yml".data then some "name: Zed".data else none

/-- A sample filesystem for `on_tree_node_expanded`: `r` lists two
entries, of which `r/a` is a subdirectory. -/
def sampleBrowseFS : BrowseFS :=
  ⟨fun p => if p = "r".data then some ["b.yml".data, "a".data] else none,
   fun p => p == "r/a".data⟩

/-!
# Theorems

First the shared helper lemmas, then one theorem per claim (with its
witness where the statement carries hypotheses).
-/

/-- A loop that appends one result per element is a `map`. -/
theorem foldl_append_map (f : α → β) :
    ∀ (l : List α) (acc : List β),
      l.foldl (fun acc x => acc ++ [f x]) acc = acc ++ l.map f
  | [], acc => by simp
  | x :: xs, acc => by
    rw [List.foldl_cons, foldl_append_map f xs]
    simp

/-! ## C6: schema-name resolution -/

/-- C6: for every filename, `get_schema_name_from_filename` returns the
second-to-last dot-delimited segment of its basename when that name has at
least three dot-delimited segments, and `None` (undeterminable) otherwise;
in particular it maps `crispus-attucks.Person.yml` to `Person` and
`noschema.yml` to `None`. -/
theorem claim_C6_resolve_schema_name (filename : PyStr) :
    (let parts := pySplitChar '.' (pyBasename filename);
      (3 ≤ parts.length →
        get_schema_name_from_filename filename = parts.get? (parts.length - 2))
      ∧ (parts.length < 3 → get_schema_name_from_filename filename = none))
    ∧ get_schema_name_from_filename "crispus-attucks.Person.yml".data = some "Person".data
    ∧ get_schema_name_from_filename "noschema.yml".data = none := by
  refine ⟨⟨fun h3 => ?_, fun hlt => ?_⟩, by decide, by decide⟩
  · have hlt : (pySplitChar '.' (pyBasename filename)).length - 2
        < (pySplitChar '.' (pyBasename filename)).length := by omega
    unfold get_schema_name_from_filename
    rw [if_pos h3, List.getD_eq_getElem?_getD, List.getElem?_eq_getElem hlt]
    simp [List.get?_eq_getElem?, List.getElem?_eq_getElem hlt]
  · unfold get_schema_name_from_filename
    rw [if_neg (by omega)]

/-- Witness for C6 at the filename `a.B.yml`. -/
theorem claim_C6_witness :
    get_schema_name_from_filename "a.B.yml".data
      = (pySplitChar '.' (pyBasename "a.B.yml".data)).get?
          ((pySplitChar '.' (pyBasename "a.B.yml".data)).length - 2) :=
  (claim_C6_resolve_schema_name "a.B.yml".data).1.1 (by decide)

/-! ## C2: the worked scan example -/

/-- C2: on the file with lines `name: Alice Smith`, `tags:`, `- blue`,
`- green`, scanning for `green` yields exactly one match — line 4,
property `tags`, value `green` — and scanning for `alice` yields exactly
one match — line 1, property `name`, value `Alice Smith`. -/
theorem claim_C2_scan_examples :
    scan_matches "green".data
        ["name: Alice Smith".data, "tags:".data, "- blue".data, "- green".data]
      = [(4, some "tags".data, "green".data)]
    ∧ scan_matches "alice".data
        ["name: Alice Smith".data, "tags:".data, "- blue".data, "- green".data]
      = [(1, some "name".data, "Alice Smith".data)] :=
  ⟨by decide, by decide⟩

/-! ## C10: a non-empty value clears the property context -/

/-- C10: in the scan, every key/value line with a non-empty value clears
the remembered property context (`last_key = None`), whether or not the
value matched the term; consequently a matching list item that follows a
non-empty key/value line is recorded with an absent property name. -/
theorem claim_C10_nonempty_value_clears_context
    (term : PyStr) (st : ScanState) (idx : Nat) (line : PyStr)
    (h1 : pyStrip line ≠ [])
    (h2 : pyStartsWith (pyStrip line) ['#'] = false)
    (h3 : line.contains ':' = true)
    (h4 : pyStrip (pySplitColonOnce line).2 ≠ []) :
    (scanLine term st idx line).lastKey = none
    ∧ scan_matches "zed".data ["a: b".data, "- zed".data] = [(2, none, "zed".data)] := by
  refine ⟨?_, by decide⟩
  unfold scanLine
  rw [if_neg (by simp [h1, h2]), if_pos h3, if_neg h4]
  split <;> rfl

/-- Witness for C10: after the non-empty key/value line `a: b` the
context is cleared even though a context (`k`) was remembered before. -/
theorem claim_C10_witness :
    (scanLine "zed".data ⟨some "k".data, []⟩ 5 "a: b".data).lastKey = none
    ∧ scan_matches "zed".data ["a: b".data, "- zed".data] = [(2, none, "zed".data)] :=
  claim_C10_nonempty_value_clears_context "zed".data ⟨some "k".data, []⟩ 5 "a: b".data
    (by decide) (by decide) (by decide) (by decide)

/-! ## C1: the validation batch collects every file's result -/

/-- Every branch of the loop body records the file it is about. -/
theorem validate_one_fst (env : VEnv) (f : PyStr) : (validate_one env f).1 = f := by
  unfold validate_one
  split <;> (try split) <;> (try split) <;> (try split) <;> rfl

/-- C1: the batch validation loop is a per-file map — a failure
(undeterminable schema, missing schema, or validation error) of one file
never prevents the remaining files from being validated, and every file's
result is collected and reported, with its message, in discovery order. -/
theorem claim_C1_batch_collects_all (env : VEnv) (files : List PyStr) :
    validate_main env files = files.map (validate_one env)
    ∧ (validate_main env files).length = files.length
    ∧ (∀ i, (validate_main env files).get? i = (files.get? i).map (validate_one env))
    ∧ (∀ f ∈ files, validate_one env f ∈ validate_main env files)
    ∧ validate_report (validate_main env files)
        = files.map (fun f =>
            if (validate_one env f).2.1 then VLine.ok f
            else VLine.fail f (validate_one env f).2.2) := by
  have hmap : validate_main env files = files.map (validate_one env) := by
    unfold validate_main
    rw [foldl_append_map]
    rfl
  refine ⟨hmap, by rw [hmap]; simp, fun i => ?_, fun f hf => ?_, ?_⟩
  · rw [hmap, List.get?_map]
  · rw [hmap]
    exact List.mem_map_of_mem _ hf
  · rw [hmap]
    unfold validate_report
    rw [List.map_map]
    simp [Function.comp, validate_one_fst]

/-- Witness for C1: a file's result is present in the batch output. -/
theorem claim_C1_witness :
    validate_one sampleVEnv "a.B.yml".data
      ∈ validate_main sampleVEnv ["bad".data, "a.B.yml".data] :=
  (claim_C1_batch_collects_all sampleVEnv ["bad".data, "a.B.yml".data]).2.2.2.1
    "a.B.yml".data (by simp)

/-! ## C9: the search batch skips unreadable files -/

/-- One step of the file loop only ever appends to the output and
disjoins the found flag. -/
theorem searchStep_split (lterm : PyStr) (acc : List SearchEvent × Bool)
    (f : PyStr × Option (List PyStr)) :
    searchStep lterm acc f
      = (acc.1 ++ (searchStep lterm ([], false) f).1,
         acc.2 || (searchStep lterm ([], false) f).2) := by
  obtain ⟨a, b⟩ := acc
  unfold searchStep
  cases f.2 with
  | none => simp
  | some lines =>
    by_cases hms : (scanLinesFrom lterm ⟨none, []⟩ 1 lines).found = [] <;> simp [hms]

/-- The file loop is a `flatMap` of per-file outputs together with an
`any` of per-file found flags. -/
theorem searchStep_foldl (lterm : PyStr) :
    ∀ (files : List (PyStr × Option (List PyStr))) (acc : List SearchEvent × Bool),
      files.foldl (searchStep lterm) acc
        = (acc.1 ++ files.flatMap (fun f => (searchStep lterm ([], false) f).1),
           acc.2 || files.any (fun f => (searchStep lterm ([], false) f).2))
  | [], acc => by simp
  | f :: fs, acc => by
    rw [List.foldl_cons, searchStep_foldl lterm fs, searchStep_split]
    simp [List.flatMap_cons, Bool.or_assoc]

/-- The per-file output of one loop step started from the empty
accumulator is `search_file_events`. -/
theorem searchStep_events (term : PyStr) (f : PyStr × Option (List PyStr)) :
    (searchStep (pyLower term) ([], false) f).1 = search_file_events term f := by
  unfold searchStep search_file_events
  cases f.2 with
  | none => rfl
  | some lines =>
    by_cases hms : (scanLinesFrom (pyLower term) ⟨none, []⟩ 1 lines).found = [] <;>
      simp [hms]

/-- The found flag of one loop step started from the empty accumulator is
`search_found`. -/
theorem searchStep_found (term : PyStr) (f : PyStr × Option (List PyStr)) :
    (searchStep (pyLower term) ([], false) f).2 = search_found term f := by
  unfold searchStep search_found
  cases f.2 with
  | none => rfl
  | some lines =>
    by_cases hms : (scanLinesFrom (pyLower term) ⟨none, []⟩ 1 lines).found = [] <;>
      simp [hms, List.isEmpty_iff]

/-- C9: during the batch search scan, every unreadable file contributes
exactly a warning and scanning continues: the whole batch output is the
concatenation of every file's own output (plus the final no-matches
message), so one unreadable file never aborts the scan; in particular the
warning is emitted and every other file's results still appear. -/
theorem claim_C9_unreadable_skipped (term : PyStr)
    (files : List (PyStr × Option (List PyStr))) :
    search_run term files
      = files.flatMap (search_file_events term)
        ++ (if files.any (search_found term) then [] else [SearchEvent.noMatches term])
    ∧ (∀ f ∈ files, f.2 = none → SearchEvent.warn f.1 ∈ search_run term files)
    ∧ (∀ f ∈ files, ∃ pre post,
        search_run term files = pre ++ search_file_events term f ++ post) := by
  have hevents : (fun f => (searchStep (pyLower term) ([], false) f).1)
      = search_file_events term := funext (searchStep_events term)
  have hfound : (fun f => (searchStep (pyLower term) ([], false) f).2)
      = search_found term := funext (searchStep_found term)
  have hrun : search_run term files
      = files.flatMap (search_file_events term)
        ++ (if files.any (search_found term) then [] else [SearchEvent.noMatches term]) := by
    unfold search_run
    rw [searchStep_foldl, hevents, hfound]
    by_cases hany : files.any (search_found term) <;> simp [hany]
  refine ⟨hrun, fun f hf hnone => ?_, fun f hf => ?_⟩
  · rw [hrun]
    refine List.mem_append_left _ (List.mem_flatMap.mpr ⟨f, hf, ?_⟩)
    unfold search_file_events
    rw [hnone]
    exact List.mem_singleton.mpr rfl
  · obtain ⟨s, t, hst⟩ := List.append_of_mem hf
    refine ⟨s.flatMap (search_file_events term),
      t.flatMap (search_file_events term)
        ++ (if files.any (search_found term) then [] else [SearchEvent.noMatches term]), ?_⟩
    rw [hrun, hst]
    simp [List.flatMap_append, List.flatMap_cons]

/-- Witness for C9: the unreadable file `bad` yields its warning while the
readable file is still scanned. -/
theorem claim_C9_witness :
    SearchEvent.warn "bad".data
      ∈ search_run "zed".data
          [("bad".data, none), ("good".data, some ["a: zed".data])] :=
  (claim_C9_unreadable_skipped "zed".data
      [("bad".data, none), ("good".data, some ["a: zed".data])]).2.1
    ("bad".data, none) (by simp) rfl

/-! ## C8: locating the files that contain the term -/

/-- One step of the inner file loop appends the kept path, if any. -/
theorem scanTermStep_split (tl : PyStr) (rf : PyStr → Option PyStr)
    (root : PyStr) (acc : List PyStr) (f : PyStr) :
    scanTermStep tl rf root acc f = acc ++ (scanTermKeep tl rf root f).toList := by
  unfold scanTermStep scanTermKeep
  by_cases he : pyEndsWith f ".yml".data = false
  · simp [he]
  · rw [if_neg (by simp_all), if_neg he]
    cases hr : rf (pyJoin root f) with
    | none => simp [hr]
    | some text => by_cases hc : pyContains (pyLower text) tl = true <;> simp [hr, hc]

/-- The inner file loop is a `filterMap`. -/
theorem scanTermStep_foldl (tl : PyStr) (rf : PyStr → Option PyStr) (root : PyStr) :
    ∀ (fs : List PyStr) (acc : List PyStr),
      fs.foldl (scanTermStep tl rf root) acc
        = acc ++ fs.filterMap (scanTermKeep tl rf root)
  | [], acc => by simp
  | f :: fs, acc => by
    rw [List.foldl_cons, scanTermStep_foldl tl rf root fs, scanTermStep_split,
      List.filterMap_cons]
    cases scanTermKeep tl rf root f <;> simp

/-- The whole walk is a `flatMap` of per-directory `filterMap`s. -/
theorem scan_for_term_eq (term : PyStr) (walk : List (PyStr × List PyStr))
    (read_file : PyStr → Option PyStr) :
    scan_for_term term walk read_file
      = walk.flatMap (fun rf => rf.2.filterMap (scanTermKeep (pyLower term) read_file rf.1)) := by
  unfold scan_for_term
  suffices h : ∀ (w : List (PyStr × List PyStr)) (acc : List PyStr),
      w.foldl (fun acc rf => rf.2.foldl (scanTermStep (pyLower term) read_file rf.1) acc) acc
        = acc ++ w.flatMap
            (fun rf => rf.2.filterMap (scanTermKeep (pyLower term) read_file rf.1)) by
    rw [h]
    rfl
  intro w
  induction w with
  | nil => simp
  | cons rf ws ih =>
    intro acc
    rw [List.foldl_cons, ih, scanTermStep_foldl]
    simp [List.flatMap_cons]

/-- When `scanTermKeep` yields a path. -/
theorem scanTermKeep_eq_some (tl : PyStr) (rf : PyStr → Option PyStr)
    (root f p : PyStr) :
    scanTermKeep tl rf root f = some p ↔
      pyEndsWith f ".yml".data = true ∧ p = pyJoin root f ∧
      ∃ text, rf (pyJoin root f) = some text ∧ pyContains (pyLower text) tl = true := by
  unfold scanTermKeep
  cases he : pyEndsWith f ".yml".data with
  | false => simp [he]
  | true =>
    rw [if_neg (by simp [he])]
    cases hr : rf (pyJoin root f) with
    | none => simp [he, hr]
    | some text =>
      by_cases hc : pyContains (pyLower text) tl = true
      · simp only [he, hr, hc, if_true, if_pos hc, Option.some.injEq, true_and]
        exact ⟨fun h => ⟨h.symm, text, rfl, hc⟩, fun h => h.1.symm⟩
      · simp [he, hr, hc]

/-- C8: `scan_for_term` produces exactly the joined paths of the
extension-filtered `.yml` files under the walk whose readable raw content
contains the term case-insensitively, and no other paths. -/
theorem claim_C8_locate (term : PyStr) (walk : List (PyStr × List PyStr))
    (read_file : PyStr → Option PyStr) :
    ∀ p, p ∈ scan_for_term term walk read_file ↔
      ∃ rf ∈ walk, ∃ f ∈ rf.2,
        p = pyJoin rf.1 f ∧ pyEndsWith f ".yml".data = true ∧
        ∃ text, read_file p = some text ∧
          pyContains (pyLower text) (pyLower term) = true := by
  intro p
  rw [scan_for_term_eq]
  simp only [List.mem_flatMap, List.mem_filterMap, scanTermKeep_eq_some]
  constructor
  · rintro ⟨rf, hrf, f, hf, he, hp, text, hread, hcont⟩
    exact ⟨rf, hrf, f, hf, hp, he, text, hp ▸ hread, hcont⟩
  · rintro ⟨rf, hrf, f, hf, hp, he, text, hread, hcont⟩
    exact ⟨rf, hrf, f, hf, he, hp, text, hp ▸ hread, hcont⟩

/-- Witness for C8: the file `r/x.yml`, whose content contains `zed`, is
located. -/
theorem claim_C8_witness :
    pyJoin "r".data "x.yml".data
      ∈ scan_for_term "zed".data [("r".data, ["x.yml".data, "skip.txt".data])] sampleRead :=
  (claim_C8_locate "zed".data [("r".data, ["x.yml".data, "skip.txt".data])] sampleRead
      (pyJoin "r".data "x.yml".data)).mpr
    ⟨("r".data, ["x.yml".data, "skip.txt".data]), by simp, "x.yml".data, by simp,
      rfl, by decide, "name: Zed".data, by decide, by decide⟩

/-! ## C7: highlighting every non-overlapping occurrence -/

/-- Lowering commutes with `drop`. -/
theorem pyLower_drop (l : PyStr) (k : Nat) : pyLower (l.drop k) = (pyLower l).drop k := by
  unfold pyLower
  rw [List.map_drop]

/-- A failed `find` means the needle occurs nowhere. -/
theorem pyFind_none (hay needle : PyStr) (h : pyFind hay needle = none) :
    ∀ j, needle.isPrefixOf (hay.drop j) = false := by
  induction hay with
  | nil =>
    intro j
    rw [pyFind] at h
    have hne : needle ≠ [] := by
      intro he
      rw [if_pos he] at h
      exact Option.noConfusion h
    cases needle with
    | nil => exact absurd rfl hne
    | cons c cs => simp [List.isPrefixOf]
  | cons c t ih =>
    intro j
    rw [pyFind] at h
    by_cases hp : needle.isPrefixOf (c :: t) = true
    · rw [if_pos hp] at h
      exact Option.noConfusion h
    · rw [if_neg hp] at h
      have ht : pyFind t needle = none := by
        cases hf : pyFind t needle with
        | none => rfl
        | some a => rw [hf] at h; exact Option.noConfusion h
      cases j with
      | zero => simpa using (Bool.not_eq_true _).mp hp
      | succ j => simpa using ih ht j

/-- A successful `find` points at an occurrence. -/
theorem pyFind_some_isP (hay needle : PyStr) (i : Nat)
    (h : pyFind hay needle = some i) :
    needle.isPrefixOf (hay.drop i) = true := by
  induction hay generalizing i with
  | nil =>
    rw [pyFind] at h
    by_cases hne : needle = []
    · subst hne
      simp [List.isPrefixOf]
    · rw [if_neg hne] at h
      exact Option.noConfusion h
  | cons c t ih =>
    rw [pyFind] at h
    by_cases hp : needle.isPrefixOf (c :: t) = true
    · rw [if_pos hp] at h
      cases h
      simpa using hp
    · rw [if_neg hp] at h
      obtain ⟨a, ha, hai⟩ := Option.map_eq_some'.mp h
      subst hai
      simpa using ih a ha

/-- A successful `find` is leftmost. -/
theorem pyFind_some_min (hay needle : PyStr) (i : Nat)
    (h : pyFind hay needle = some i) :
    ∀ j < i, needle.isPrefixOf (hay.drop j) = false := by
  induction hay generalizing i with
  | nil =>
    intro j hj
    rw [pyFind] at h
    by_cases hne : needle = []
    · rw [if_pos hne] at h
      cases h
      omega
    · rw [if_neg hne] at h
      exact Option.noConfusion h
  | cons c t ih =>
    intro j hj
    rw [pyFind] at h
    by_cases hp : needle.isPrefixOf (c :: t) = true
    · rw [if_pos hp] at h
      cases h
      omega
    · rw [if_neg hp] at h
      obtain ⟨a, ha, hai⟩ := Option.map_eq_some'.mp h
      subst hai
      cases j with
      | zero => simpa using (Bool.not_eq_true _).mp hp
      | succ j => simpa using ih a ha j (by omega)

/-- Unfolding `hlLoop` when the term is absent. -/
theorem hlLoop_none (c0 : Char) (rest val : PyStr)
    (h : pyFind (pyLower val) (c0 :: rest) = none) :
    hlLoop c0 rest val = val := by
  conv_lhs => unfold hlLoop
  split
  · rfl
  · rename_i i hi
    rw [h] at hi
    exact Option.noConfusion hi

/-- Unfolding `hlLoop` at a found occurrence. -/
theorem hlLoop_some (c0 : Char) (rest val : PyStr) (i : Nat)
    (h : pyFind (pyLower val) (c0 :: rest) = some i) :
    hlLoop c0 rest val
      = val.take i ++ markOpen ++ (val.drop i).take (rest.length + 1) ++ markClose
          ++ hlLoop c0 rest ((val.drop i).drop (rest.length + 1)) := by
  conv_lhs => unfold hlLoop
  split
  · rename_i hi
    rw [h] at hi
    exact Option.noConfusion hi
  · rename_i j hj
    rw [h] at hj
    cases hj
    rfl

/-- Unfolding `greedyGaps` when the term is absent. -/
theorem greedyGaps_none (c0 : Char) (rest lval : PyStr)
    (h : pyFind lval (c0 :: rest) = none) :
    greedyGaps c0 rest lval = [] := by
  conv_lhs => unfold greedyGaps
  split
  · rfl
  · rename_i i hi
    rw [h] at hi
    exact Option.noConfusion hi

/-- Unfolding `greedyGaps` at a found occurrence. -/
theorem greedyGaps_some (c0 : Char) (rest lval : PyStr) (i : Nat)
    (h : pyFind lval (c0 :: rest) = some i) :
    greedyGaps c0 rest lval
      = i :: greedyGaps c0 rest (lval.drop (i + (rest.length + 1))) := by
  conv_lhs => unfold greedyGaps
  split
  · rename_i hi
    rw [h] at hi
    exact Option.noConfusion hi
  · rename_i j hj
    rw [h] at hj
    cases hj
    rfl

/-- The `_highlight` loop renders exactly the greedy left-to-right
non-overlapping occurrence decomposition. -/
theorem hlLoop_eq (c0 : Char) (rest : PyStr) (val : PyStr) :
    hlLoop c0 rest val
      = renderGaps (rest.length + 1) (greedyGaps c0 rest (pyLower val)) val := by
  cases hfind : pyFind (pyLower val) (c0 :: rest) with
  | none => rw [hlLoop_none c0 rest val hfind, greedyGaps_none c0 rest _ hfind, renderGaps]
  | some i =>
    rw [hlLoop_some c0 rest val i hfind, greedyGaps_some c0 rest _ i hfind, renderGaps,
      hlLoop_eq c0 rest ((val.drop i).drop (rest.length + 1)), pyLower_drop, pyLower_drop,
      List.drop_drop]
  termination_by val.length
  decreasing_by
    cases val with
    | nil => simp [pyLower, pyFind] at hfind
    | cons a as =>
      simp only [List.length_drop, List.length_cons]
      omega

/-- Every position the greedy decomposition marks carries a genuine
occurrence of the needle. -/
theorem greedyGaps_sound (c0 : Char) (rest : PyStr) (lval : PyStr) :
    ∀ base p, p ∈ gapPositions (rest.length + 1) (greedyGaps c0 rest lval) base →
      base ≤ p ∧ (c0 :: rest).isPrefixOf (lval.drop (p - base)) = true := by
  cases hfind : pyFind lval (c0 :: rest) with
  | none =>
    intro base p hp
    rw [greedyGaps_none c0 rest _ hfind] at hp
    simp [gapPositions] at hp
  | some i =>
    intro base p hp
    rw [greedyGaps_some c0 rest _ i hfind] at hp
    simp only [gapPositions, List.mem_cons] at hp
    rcases hp with h | h
    · subst h
      refine ⟨by omega, ?_⟩
      have hpre := pyFind_some_isP lval (c0 :: rest) i hfind
      simpa [Nat.add_sub_cancel_left] using hpre
    · obtain ⟨hle, hpre⟩ :=
        greedyGaps_sound c0 rest (lval.drop (i + (rest.length + 1)))
          (base + i + (rest.length + 1)) p h
      refine ⟨by omega, ?_⟩
      rw [List.drop_drop] at hpre
      have harith : i + (rest.length + 1) + (p - (base + i + (rest.length + 1)))
          = p - base := by omega
      rwa [harith] at hpre
  termination_by lval.length
  decreasing_by
    cases lval with
    | nil => simp [pyFind] at hfind
    | cons a as =>
      simp only [List.length_drop, List.length_cons]
      omega

/-- Every occurrence of the needle overlaps a span the greedy
decomposition marks: no non-overlapping occurrence is missed. -/
theorem greedyGaps_complete (c0 : Char) (rest : PyStr) (lval : PyStr) :
    ∀ base j, (c0 :: rest).isPrefixOf (lval.drop j) = true →
      ∃ p ∈ gapPositions (rest.length + 1) (greedyGaps c0 rest lval) base,
        p ≤ base + j ∧ base + j < p + (rest.length + 1) := by
  cases hfind : pyFind lval (c0 :: rest) with
  | none =>
    intro base j hj
    rw [pyFind_none lval _ hfind j] at hj
    exact Bool.noConfusion hj
  | some i =>
    intro base j hj
    rw [greedyGaps_some c0 rest _ i hfind]
    simp only [gapPositions, List.mem_cons]
    by_cases hcase : j < i + (rest.length + 1)
    · refine ⟨base + i, Or.inl rfl, ?_, by omega⟩
      have hmin : ¬ j < i := by
        intro hlt
        rw [pyFind_some_min lval _ i hfind j hlt] at hj
        exact Bool.noConfusion hj
      omega
    · have hj' : (c0 :: rest).isPrefixOf
          ((lval.drop (i + (rest.length + 1))).drop (j - (i + (rest.length + 1)))) = true := by
        rw [List.drop_drop]
        have harith : i + (rest.length + 1) + (j - (i + (rest.length + 1))) = j := by omega
        rwa [harith]
      obtain ⟨p, hpmem, hp1, hp2⟩ :=
        greedyGaps_complete c0 rest (lval.drop (i + (rest.length + 1)))
          (base + i + (rest.length + 1)) (j - (i + (rest.length + 1))) hj'
      exact ⟨p, Or.inr hpmem, by omega, by omega⟩
  termination_by lval.length
  decreasing_by
    cases lval with
    | nil => simp [pyFind] at hfind
    | cons a as =>
      simp only [List.length_drop, List.length_cons]
      omega

/-- C7: for a non-empty term, `_highlight` marks exactly the
non-overlapping case-insensitive occurrences found scanning left to right
and advancing strictly past each matched span — every marked position is a
genuine occurrence and every occurrence overlaps a marked span — while for
the empty term the text is returned unchanged with no marking. -/
theorem claim_C7_highlight (value term : PyStr) :
    (term = [] → _highlight value term = value)
    ∧ (∀ c0 trest, term = c0 :: trest →
        _highlight value term
          = renderGaps term.length
              (greedyGaps (Char.toLower c0) (pyLower trest) (pyLower value)) value
        ∧ (∀ p ∈ gapPositions term.length
              (greedyGaps (Char.toLower c0) (pyLower trest) (pyLower value)) 0,
            pyStartsWith ((pyLower value).drop p) (pyLower term) = true)
        ∧ (∀ j, pyStartsWith ((pyLower value).drop j) (pyLower term) = true →
            ∃ p ∈ gapPositions term.length
                (greedyGaps (Char.toLower c0) (pyLower trest) (pyLower value)) 0,
              p ≤ j ∧ j < p + term.length)) := by
  constructor
  · intro h
    subst h
    rfl
  · intro c0 trest h
    subst h
    have hlen : (c0 :: trest).length = (pyLower trest).length + 1 := by
      simp [pyLower]
    refine ⟨?_, ?_, ?_⟩
    · show hlLoop (Char.toLower c0) (pyLower trest) value = _
      rw [hlLoop_eq, hlen]
    · intro p hp
      rw [hlen] at hp
      have hs := (greedyGaps_sound (Char.toLower c0) (pyLower trest) (pyLower value) 0 p hp).2
      show (Char.toLower c0 :: pyLower trest).isPrefixOf ((pyLower value).drop p) = true
      simpa using hs
    · intro j hj
      have hj2 : (Char.toLower c0 :: pyLower trest).isPrefixOf ((pyLower value).drop j) = true := hj
      obtain ⟨p, hpmem, hp1, hp2⟩ :=
        greedyGaps_complete (Char.toLower c0) (pyLower trest) (pyLower value) 0 j hj2
      rw [hlen]
      exact ⟨p, hpmem, by omega, by omega⟩

/-- Witness for C7 at `_highlight("aBc", "b")`. -/
theorem claim_C7_witness :
    _highlight "aBc".data "b".data
      = renderGaps "b".data.length
          (greedyGaps (Char.toLower 'b') (pyLower "".data) (pyLower "aBc".data))
          "aBc".data :=
  ((claim_C7_highlight "aBc".data "b".data).2 'b' "".data rfl).1

/-! ## C5: `rewrite_refs` is idempotent for the pipeline's base URIs -/

/-- A prefix of `s` is a prefix of `s ++ ext`. -/
theorem pyStartsWith_append (s pre ext : PyStr) (h : pyStartsWith s pre = true) :
    pyStartsWith (s ++ ext) pre = true := by
  unfold pyStartsWith at *
  rw [List.isPrefixOf_iff_prefix] at *
  exact h.trans (List.prefix_append s ext)

/-- Unfolding `rewriteRefsObj` on one key/value pair. -/
theorem rewriteRefsObj_cons (k : PyStr) (v : JValue) (rest : JObj) (base : PyStr) :
    rewriteRefsObj (JObj.cons k v rest) base
      = JObj.cons k
          (if k = "$ref".data then
            match v with
            | JValue.str s =>
              if !(pyStartsWith s "http".data) && !(pyStartsWith s "file://".data) then
                JValue.str (base ++ s)
              else JValue.str s
            | _ => rewrite_refs v base
          else rewrite_refs v base)
          (rewriteRefsObj rest base) := rfl

mutual
/-- Rewriting twice with a base that is itself a `file://` URI is the same
as rewriting once. -/
theorem rewrite_refs_idem (o : JValue) (base : PyStr)
    (hb : pyStartsWith base "file://".data = true) :
    rewrite_refs (rewrite_refs o base) base = rewrite_refs o base := by
  cases o with
  | str s => rfl
  | atom t => rfl
  | obj fields =>
    show JValue.obj (rewriteRefsObj (rewriteRefsObj fields base) base)
        = JValue.obj (rewriteRefsObj fields base)
    exact congrArg JValue.obj (rewriteRefsObj_idem fields base hb)
  | arr elems =>
    show JValue.arr (rewriteRefsArr (rewriteRefsArr elems base) base)
        = JValue.arr (rewriteRefsArr elems base)
    exact congrArg JValue.arr (rewriteRefsArr_idem elems base hb)

/-- Object case of `rewrite_refs_idem`. -/
theorem rewriteRefsObj_idem (fields : JObj) (base : PyStr)
    (hb : pyStartsWith base "file://".data = true) :
    rewriteRefsObj (rewriteRefsObj fields base) base = rewriteRefsObj fields base := by
  cases fields with
  | nil => rfl
  | cons k v rest =>
    rw [rewriteRefsObj_cons, rewriteRefsObj_cons, rewriteRefsObj_idem rest base hb]
    congr 1
    by_cases hk : k = "$ref".data
    · subst hk
      rw [if_pos rfl, if_pos rfl]
      cases v with
      | str s =>
        by_cases hrel : (!(pyStartsWith s "http".data)
            && !(pyStartsWith s "file://".data)) = true
        · have habs : pyStartsWith (base ++ s) "file://".data = true :=
            pyStartsWith_append base "file://".data s hb
          simp [hrel, habs]
        · simp [hrel]
      | atom t => simp [rewrite_refs]
      | obj fs =>
        have h := rewrite_refs_idem (JValue.obj fs) base hb
        simp only [rewrite_refs] at h ⊢
        exact h
      | arr es =>
        have h := rewrite_refs_idem (JValue.arr es) base hb
        simp only [rewrite_refs] at h ⊢
        exact h
    · rw [if_neg hk, if_neg hk]
      exact rewrite_refs_idem v base hb

/-- Array case of `rewrite_refs_idem`. -/
theorem rewriteRefsArr_idem (elems : JArr) (base : PyStr)
    (hb : pyStartsWith base "file://".data = true) :
    rewriteRefsArr (rewriteRefsArr elems base) base = rewriteRefsArr elems base := by
  cases elems with
  | nil => rfl
  | cons v rest =>
    show JArr.cons (rewrite_refs (rewrite_refs v base) base)
          (rewriteRefsArr (rewriteRefsArr rest base) base)
        = JArr.cons (rewrite_refs v base) (rewriteRefsArr rest base)
    rw [rewrite_refs_idem v base hb, rewriteRefsArr_idem rest base hb]
end

/-- C5: reference localization is idempotent — for every document and
every base URI of the pipeline's `file://.../` form, rewriting twice with
the same base equals rewriting once; and a reference that is already
absolute is left unchanged. -/
theorem claim_C5_localize_idempotent (doc : JValue) (base : PyStr)
    (hb : pyStartsWith base "file://".data = true) :
    rewrite_refs (rewrite_refs doc base) base = rewrite_refs doc base
    ∧ (∀ k s rest, pyStartsWith s "file://".data = true →
        rewriteRefsObj (JObj.cons k (JValue.str s) rest) base
          = JObj.cons k (JValue.str s) (rewriteRefsObj rest base)) := by
  refine ⟨rewrite_refs_idem doc base hb, fun k s rest hs => ?_⟩
  rw [rewriteRefsObj_cons]
  congr 1
  by_cases hk : k = "$ref".data
  · subst hk
    rw [if_pos rfl]
    simp [hs]
  · rw [if_neg hk]
    rfl

/-- Witness for C5 on a one-entry schema object with a relative `$ref`. -/
theorem claim_C5_witness :
    rewrite_refs
        (rewrite_refs
          (JValue.obj (JObj.cons "$ref".data (JValue.str "Person.json".data) JObj.nil))
          "file:///tmp/schema/".data)
        "file:///tmp/schema/".data
      = rewrite_refs
          (JValue.obj (JObj.cons "$ref".data (JValue.str "Person.json".data) JObj.nil))
          "file:///tmp/schema/".data :=
  (claim_C5_localize_idempotent
      (JValue.obj (JObj.cons "$ref".data (JValue.str "Person.json".data) JObj.nil))
      "file:///tmp/schema/".data (by decide)).1

/-! ## C4: directory expansion -/

/-- `strLe` on cons cells, spelled out. -/
theorem strLe_cons_iff (a b : Char) (as bs : PyStr) :
    strLe (a :: as) (b :: bs) = true ↔
      a.toNat < b.toNat ∨ (a.toNat = b.toNat ∧ strLe as bs = true) := by
  show (if a.toNat < b.toNat then true
      else if b.toNat < a.toNat then false else strLe as bs) = true ↔ _
  by_cases h1 : a.toNat < b.toNat
  · simp [h1]
  · by_cases h2 : b.toNat < a.toNat
    · rw [if_neg h1, if_pos h2]
      simp only [Bool.false_eq_true, false_iff]
      rintro (h | ⟨he, _⟩)
      · exact h1 h
      · omega
    · have he : a.toNat = b.toNat := by omega
      rw [if_neg h1, if_neg h2]
      simp [he, h1]

/-- Python string comparison is total. -/
theorem strLe_total : ∀ a b : PyStr, strLe a b = true ∨ strLe b a = true
  | [], _ => Or.inl rfl
  | _ :: _, [] => Or.inr rfl
  | a :: as, b :: bs => by
    rw [strLe_cons_iff, strLe_cons_iff]
    rcases strLe_total as bs with h | h
    · by_cases hab : a.toNat < b.toNat
      · exact Or.inl (Or.inl hab)
      · by_cases hba : b.toNat < a.toNat
        · exact Or.inr (Or.inl hba)
        · exact Or.inl (Or.inr ⟨by omega, h⟩)
    · by_cases hba : b.toNat < a.toNat
      · exact Or.inr (Or.inl hba)
      · by_cases hab : a.toNat < b.toNat
        · exact Or.inl (Or.inl hab)
        · exact Or.inr (Or.inr ⟨by omega, h⟩)

/-- Python string comparison is transitive. -/
theorem strLe_trans : ∀ a b c : PyStr,
    strLe a b = true → strLe b c = true → strLe a c = true
  | [], _, _, _, _ => rfl
  | _ :: _, [], _, hab, _ => by simp [strLe] at hab
  | _ :: _, _ :: _, [], _, hbc => by simp [strLe] at hbc
  | a :: as, b :: bs, c :: cs, hab, hbc => by
    rw [strLe_cons_iff] at hab hbc ⊢
    rcases hab with h | ⟨he1, hr1⟩
    · rcases hbc with h2 | ⟨he2, hr2⟩
      · exact Or.inl (by omega)
      · exact Or.inl (by omega)
    · rcases hbc with h2 | ⟨he2, hr2⟩
      · exact Or.inl (by omega)
      · exact Or.inr ⟨by omega, strLe_trans as bs cs hr1 hr2⟩

/-- Inserting permutes with consing. -/
theorem pyInsertBy_perm (le : α → α → Bool) (x : α) :
    ∀ l : List α, (pyInsertBy le x l).Perm (x :: l)
  | [] => List.Perm.refl _
  | y :: ys => by
    unfold pyInsertBy
    by_cases h : le x y = true
    · rw [if_pos h]
    · rw [if_neg h]
      exact ((pyInsertBy_perm le x ys).cons y).trans (List.Perm.swap x y ys)

/-- `sorted` is a permutation of its input. -/
theorem pySortedBy_perm (le : α → α → Bool) : ∀ l : List α, (pySortedBy le l).Perm l
  | [] => List.Perm.refl _
  | x :: xs =>
    (pyInsertBy_perm le x (pySortedBy le xs)).trans ((pySortedBy_perm le xs).cons x)

/-- Inserting into a sorted list keeps it sorted. -/
theorem pyInsertBy_sorted (x : PyStr) :
    ∀ l : List PyStr, List.Sorted strLeP l → List.Sorted strLeP (pyInsertBy strLe x l)
  | [], _ => List.sorted_singleton x
  | y :: ys, h => by
    rw [List.sorted_cons] at h
    obtain ⟨hy, hys⟩ := h
    unfold pyInsertBy
    by_cases hxy : strLe x y = true
    · rw [if_pos hxy, List.sorted_cons]
      refine ⟨fun b hb => ?_, List.sorted_cons.mpr ⟨hy, hys⟩⟩
      rcases List.mem_cons.mp hb with rfl | hb
      · exact hxy
      · exact strLe_trans x y b hxy (hy b hb)
    · rw [if_neg hxy, List.sorted_cons]
      have hyx : strLe y x = true := (strLe_total x y).resolve_left hxy
      refine ⟨fun b hb => ?_, pyInsertBy_sorted x ys hys⟩
      rcases List.mem_cons.mp ((pyInsertBy_perm strLe x ys).mem_iff.mp hb) with rfl | hb2
      · exact hyx
      · exact hy b hb2

/-- `sorted` sorts. -/
theorem pySorted_sorted : ∀ l : List PyStr, List.Sorted strLeP (pySorted l)
  | [] => List.sorted_nil
  | x :: xs => pyInsertBy_sorted x (pySortedBy strLe xs) (pySorted_sorted xs)

/-- An entry child is never a placeholder. -/
theorem childFor_not_placeholder (fs : BrowseFS) (path e : PyStr) :
    isPlaceholderNode (childFor fs path e) = false := by
  unfold childFor isPlaceholderNode
  by_cases h : fs.isdir (pyJoin path e) = true <;> simp [h]

/-- The early return of the expansion handler. -/
theorem expand_guard (fs : BrowseFS) (path : PyStr) (isDir : Bool) (children : List BNode)
    (h : path = [] ∨ isDir = false) :
    on_tree_node_expanded fs (BNode.node (NodeData.real path isDir) children)
      = BNode.node (NodeData.real path isDir) children := by
  simp only [on_tree_node_expanded]
  rw [if_pos h]

/-- The working branch of the expansion handler. -/
theorem expand_go (fs : BrowseFS) (path : PyStr) (isDir : Bool) (children : List BNode)
    (h : ¬(path = [] ∨ isDir = false)) :
    on_tree_node_expanded fs (BNode.node (NodeData.real path isDir) children)
      = (if (children.filter (fun c => !(isPlaceholderNode c))).isEmpty then
          match fs.listdir path with
          | none =>
            BNode.node (NodeData.real path isDir)
              (children.filter (fun c => !(isPlaceholderNode c)))
          | some entries =>
            BNode.node (NodeData.real path isDir)
              (children.filter (fun c => !(isPlaceholderNode c))
                ++ (pySorted entries).map (childFor fs path))
        else
          BNode.node (NodeData.real path isDir)
            (children.filter (fun c => !(isPlaceholderNode c)))) := by
  simp only [on_tree_node_expanded]
  rw [if_neg h]

/-- A list of non-placeholder nodes is unchanged by the placeholder
filter. -/
theorem filter_not_placeholder_of_forall (l : List BNode)
    (h : ∀ c ∈ l, isPlaceholderNode c = false) :
    l.filter (fun c => !(isPlaceholderNode c)) = l :=
  List.filter_eq_self.mpr (fun c hc => by rw [h c hc]; rfl)

/-- Re-expanding any node is a no-op (the filesystem unchanged). -/
theorem expand_idem (fs : BrowseFS) (n : BNode) :
    on_tree_node_expanded fs (on_tree_node_expanded fs n) = on_tree_node_expanded fs n := by
  cases n with
  | node d children =>
    cases d with
    | placeholder => rfl
    | real path isDir =>
      by_cases hguard : path = [] ∨ isDir = false
      · rw [expand_guard fs path isDir children hguard,
          expand_guard fs path isDir children hguard]
      · rw [expand_go fs path isDir children hguard]
        have hkidsfix : (children.filter (fun c => !(isPlaceholderNode c))).filter
            (fun c => !(isPlaceholderNode c))
            = children.filter (fun c => !(isPlaceholderNode c)) := by
          rw [List.filter_filter]
          simp
        by_cases hk : (children.filter (fun c => !(isPlaceholderNode c))).isEmpty
        · rw [if_pos hk]
          cases hl : fs.listdir path with
          | none =>
            rw [expand_go fs path isDir _ hguard, hkidsfix, if_pos hk, hl]
          | some entries =>
            have hnil : children.filter (fun c => !(isPlaceholderNode c)) = [] :=
              List.isEmpty_iff.mp hk
            simp only [hnil, List.nil_append]
            rw [expand_go fs path isDir _ hguard,
              filter_not_placeholder_of_forall _ (fun c hc => by
                obtain ⟨e, _, he⟩ := List.mem_map.mp hc
                rw [← he]
                exact childFor_not_placeholder fs path e)]
            by_cases hme : ((pySorted entries).map (childFor fs path)).isEmpty
            · have hmap : (pySorted entries).map (childFor fs path) = [] :=
                List.isEmpty_iff.mp hme
              simp [hmap, hl]
            · rw [if_neg hme]
        · rw [if_neg hk, expand_go fs path isDir _ hguard, hkidsfix, if_neg hk]

/-- C4: expanding an Unloaded directory replaces its placeholder with
exactly the directory's listed entries sorted by name, each subdirectory
child seeded with exactly one placeholder child and each file child with
none; and expanding twice yields a tree identical to expanding once (the
filesystem unchanged between calls), a no-op on a Loaded node. -/
theorem claim_C4_expand (fs : BrowseFS) :
    (∀ path entries, path ≠ [] → fs.listdir path = some entries →
      on_tree_node_expanded fs
          (BNode.node (NodeData.real path true) [BNode.node NodeData.placeholder []])
        = BNode.node (NodeData.real path true)
            ((pySorted entries).map (childFor fs path))
      ∧ (pySorted entries).Perm entries
      ∧ List.Sorted strLeP (pySorted entries)
      ∧ (∀ e ∈ entries,
          (childFor fs path e).children
            = if fs.isdir (pyJoin path e) then [BNode.node NodeData.placeholder []]
              else []))
    ∧ (∀ n, on_tree_node_expanded fs (on_tree_node_expanded fs n)
        = on_tree_node_expanded fs n) := by
  refine ⟨fun path entries hpath hl => ⟨?_, pySortedBy_perm strLe entries,
    pySorted_sorted entries, fun e _ => ?_⟩, expand_idem fs⟩
  · rw [expand_go fs path true _ (by simp [hpath])]
    have hfil : ([BNode.node NodeData.placeholder []].filter
        (fun c => !(isPlaceholderNode c))) = [] := rfl
    rw [hfil, hl]
    simp
  · unfold childFor BNode.children
    by_cases h : fs.isdir (pyJoin path e) = true <;> simp [h]

/-- Witness for C4: expanding `r` in the sample filesystem. -/
theorem claim_C4_witness :
    on_tree_node_expanded sampleBrowseFS
        (BNode.node (NodeData.real "r".data true) [BNode.node NodeData.placeholder []])
      = BNode.node (NodeData.real "r".data true)
          ((pySorted ["b.yml".data, "a".data]).map (childFor sampleBrowseFS "r".data)) :=
  ((claim_C4_expand sampleBrowseFS).1 "r".data ["b.yml".data, "a".data]
      (by decide) (by decide)).1

/-! ## C3: the filtered tree — `dir_children` characterization -/

/-- The Bool prefix test, as the `IsPrefix` relation. -/
theorem segPrefix_iff (a b : SegPath) : a.isPrefixOf b = true ↔ a <+: b :=
  List.isPrefixOf_iff_prefix

/-- A proper prefix is a prefix of the parent. -/
theorem prefix_dropLast_of_ne (r q : SegPath) (h : r <+: q) (hne : r ≠ q) :
    r <+: q.dropLast := by
  rw [List.dropLast_eq_take, List.prefix_take_iff]
  refine ⟨h, ?_⟩
  have hle := h.length_le
  have hlt : r.length < q.length := by
    rcases Nat.lt_or_ge r.length q.length with h1 | h1
    · exact h1
    · exact absurd (h.eq_of_length (by omega)) hne
  omega

/-- `take` past an appended first part. -/
theorem take_append_add (l1 l2 : List α) (j : Nat) :
    (l1 ++ l2).take (l1.length + j) = l1 ++ l2.take j := by
  rw [List.take_append_eq_append_take, List.take_all_of_le (by omega),
    Nat.add_sub_cancel_left]

/-- `take` below the length commutes with `dropLast`. -/
theorem take_dropLast_eq (l : List α) (j : Nat) (h : j ≤ l.length - 1) :
    l.dropLast.take j = l.take j := by
  rw [List.dropLast_eq_take, List.take_take, Nat.min_eq_left h]

/-- Membership after `dir_children.setdefault(k, set()).add(c)`: the old
children of the looked-up key, plus `c` under `k`. -/
theorem mem_childrenOf_addChildEntry : ∀ (m : List (SegPath × List SegPath))
    (k c k2 x : SegPath),
    x ∈ childrenOf (addChildEntry m k c) k2 ↔
      x ∈ childrenOf m k2 ∨ (k2 = k ∧ x = c)
  | [], k, c, k2, x => by
    show x ∈ (if k = k2 then [c] else childrenOf [] k2) ↔ _
    by_cases h : k = k2
    · rw [if_pos h]
      subst h
      simp [childrenOf]
    · rw [if_neg h]
      simp only [childrenOf, List.not_mem_nil, false_iff, false_or]
      exact fun hh => h hh.1.symm
  | (k1, cs) :: rest, k, c, k2, x => by
    show x ∈ childrenOf
        (if k1 = k then (k1, if cs.contains c then cs else cs ++ [c]) :: rest
         else (k1, cs) :: addChildEntry rest k c) k2 ↔ _
    by_cases h1 : k1 = k
    · rw [if_pos h1]
      show x ∈ (if k1 = k2 then (if cs.contains c then cs else cs ++ [c])
          else childrenOf rest k2) ↔
        x ∈ (if k1 = k2 then cs else childrenOf rest k2) ∨ _
      by_cases h2 : k1 = k2
      · rw [if_pos h2, if_pos h2]
        subst h1
        subst h2
        by_cases h3 : cs.contains c
        · rw [if_pos h3]
          have hcm : c ∈ cs := by simpa using h3
          constructor
          · exact fun h => Or.inl h
          · rintro (h | ⟨-, rfl⟩)
            · exact h
            · exact hcm
        · rw [if_neg h3]
          simp
      · rw [if_neg h2, if_neg h2]
        subst h1
        constructor
        · exact fun h => Or.inl h
        · rintro (h | ⟨hh, -⟩)
          · exact h
          · exact absurd hh.symm h2
    · rw [if_neg h1]
      show x ∈ (if k1 = k2 then cs else childrenOf (addChildEntry rest k c) k2) ↔
        x ∈ (if k1 = k2 then cs else childrenOf rest k2) ∨ _
      by_cases h2 : k1 = k2
      · rw [if_pos h2, if_pos h2]
        subst h2
        constructor
        · exact fun h => Or.inl h
        · rintro (h | ⟨hh, -⟩)
          · exact h
          · exact absurd hh h1
      · rw [if_neg h2, if_neg h2]
        exact mem_childrenOf_addChildEntry rest k c k2 x

/-- The chain walk ends at the joined path. -/
theorem chainWalk_snd : ∀ (ps : List PyStr) (m : List (SegPath × List SegPath))
    (cur : SegPath), (ps.foldl chainStep (m, cur)).2 = cur ++ ps
  | [], m, cur => by simp
  | p :: ps, m, cur => by
    rw [List.foldl_cons]
    show (ps.foldl chainStep (addChildEntry m cur (cur ++ [p]), cur ++ [p])).2 = _
    rw [chainWalk_snd ps _ (cur ++ [p])]
    simp

/-- Membership in the map after the chain walk: the old entries plus one
parent/child pair per walked prefix. -/
theorem chainWalk_mem : ∀ (ps : List PyStr) (m : List (SegPath × List SegPath))
    (cur k2 x : SegPath),
    x ∈ childrenOf (ps.foldl chainStep (m, cur)).1 k2 ↔
      x ∈ childrenOf m k2 ∨
      ∃ j, j < ps.length ∧ k2 = cur ++ ps.take j ∧ x = cur ++ ps.take (j + 1)
  | [], m, cur, k2, x => by simp
  | p :: ps, m, cur, k2, x => by
    rw [List.foldl_cons]
    show x ∈ childrenOf
        (ps.foldl chainStep (addChildEntry m cur (cur ++ [p]), cur ++ [p])).1 k2 ↔ _
    rw [chainWalk_mem ps _ (cur ++ [p]) k2 x, mem_childrenOf_addChildEntry]
    constructor
    · rintro ((h | ⟨rfl, rfl⟩) | ⟨j, hj, rfl, rfl⟩)
      · exact Or.inl h
      · exact Or.inr ⟨0, by simp, by simp, by simp⟩
      · refine Or.inr ⟨j + 1, by simpa using hj, ?_, ?_⟩
        · rw [List.take_succ_cons, ← List.append_cons]
        · rw [List.take_succ_cons, ← List.append_cons]
    · rintro (h | ⟨j, hj, rfl, rfl⟩)
      · exact Or.inl (Or.inl h)
      · cases j with
        | zero => exact Or.inl (Or.inr ⟨by simp, by simp⟩)
        | succ j =>
          refine Or.inr ⟨j, by simpa using hj, ?_, ?_⟩
          · rw [List.take_succ_cons, ← List.append_cons]
          · rw [List.take_succ_cons, ← List.append_cons]

/-- `commonprefix` of a path against an extension of itself. -/
theorem commonPrefixLen_append : ∀ (start ext : SegPath),
    commonPrefixLen (start ++ ext) start = start.length
  | [], ext => by
    cases ext <;> simp [commonPrefixLen]
  | s :: ss, ext => by
    simp [commonPrefixLen, commonPrefixLen_append ss ext]

/-- `relpath` of a path under the root is its relative part. -/
theorem relpathSegs_of_prefix (start rel : SegPath) :
    relpathSegs (start ++ rel) start = rel := by
  unfold relpathSegs
  rw [commonPrefixLen_append]
  simp [List.drop_left]

/-- The pairs one matched file contributes to `dir_children`: every
parent/child pair of prefixes down its chain, from just under the root to
the file itself. -/
theorem mdcStep_mem (start fp : SegPath) (m : List (SegPath × List SegPath))
    (h1 : start.isPrefixOf fp = true) (h2 : fp ≠ start) (k2 x : SegPath) :
    x ∈ childrenOf (mdcStep start m fp) k2 ↔
      x ∈ childrenOf m k2 ∨
      ∃ n, start.length < n ∧ n ≤ fp.length ∧ k2 = fp.take (n - 1) ∧ x = fp.take n := by
  obtain ⟨rel, hrel⟩ := (segPrefix_iff start fp).mp h1
  subst hrel
  have hrelne : rel ≠ [] := by
    rintro rfl
    simp at h2
  have hrellen : 1 ≤ rel.length := by
    cases rel with
    | nil => exact absurd rfl hrelne
    | cons a as => simp
  simp only [mdcStep, relpathSegs_of_prefix]
  rw [if_neg (by simp [h1]), if_neg (by simp [hrelne]), chainWalk_snd,
    mem_childrenOf_addChildEntry, chainWalk_mem]
  have htake : ∀ j : Nat, (start ++ rel).take (start.length + j) = start ++ rel.take j :=
    fun j => take_append_add start rel j
  have hdl : rel.dropLast = rel.take (rel.length - 1) := List.dropLast_eq_take rel
  constructor
  · rintro ((h | ⟨j, hj, rfl, rfl⟩) | ⟨rfl, rfl⟩)
    · exact Or.inl h
    · rw [List.length_dropLast] at hj
      refine Or.inr ⟨start.length + j + 1, by omega, by simp; omega, ?_, ?_⟩
      · rw [Nat.add_sub_cancel, htake j, take_dropLast_eq rel j (by omega)]
      · rw [show start.length + j + 1 = start.length + (j + 1) from by omega, htake (j + 1),
          take_dropLast_eq rel (j + 1) (by omega)]
    · refine Or.inr ⟨start.length + rel.length, by omega, by simp, ?_, ?_⟩
      · rw [show start.length + rel.length - 1 = start.length + (rel.length - 1) from by omega,
          htake (rel.length - 1), hdl]
      · rw [show start.length + rel.length = (start ++ rel).length from by simp,
          List.take_length]
  · rintro (h | ⟨n, hn1, hn2, rfl, rfl⟩)
    · exact Or.inl (Or.inl h)
    · simp only [List.length_append] at hn2
      by_cases hend : n = start.length + rel.length
      · refine Or.inr ⟨?_, ?_⟩
        · rw [show n - 1 = start.length + (rel.length - 1) from by omega,
            htake (rel.length - 1), hdl]
        · rw [show n = (start ++ rel).length from by simp [hend], List.take_length]
      · have hkey : ∀ j : Nat, j = n - start.length - 1 →
            j < rel.dropLast.length ∧
            (start ++ rel).take (n - 1) = start ++ rel.dropLast.take j ∧
            (start ++ rel).take n = start ++ rel.dropLast.take (j + 1) := by
          intro j hj
          refine ⟨by rw [List.length_dropLast]; omega, ?_, ?_⟩
          · rw [show n - 1 = start.length + j from by omega, htake j,
              take_dropLast_eq rel j (by omega)]
          · rw [show n = start.length + (j + 1) from by omega, htake (j + 1),
              take_dropLast_eq rel (j + 1) (by omega)]
        obtain ⟨hb, hk, hx⟩ := hkey (n - start.length - 1) rfl
        exact Or.inl (Or.inr ⟨n - start.length - 1, hb, hk, hx⟩)

/-- `dir_children` holds exactly the chain pairs of the matched files. -/
theorem mkDirChildren_mem (start : SegPath) (matched : List SegPath)
    (H1 : ∀ fp ∈ matched, start.isPrefixOf fp = true ∧ fp ≠ start) (k2 x : SegPath) :
    x ∈ childrenOf (mkDirChildren start matched) k2 ↔ pairIn start matched k2 x := by
  unfold mkDirChildren pairIn
  suffices h : ∀ (l : List SegPath),
      (∀ fp ∈ l, start.isPrefixOf fp = true ∧ fp ≠ start) →
      ∀ m, x ∈ childrenOf (l.foldl (mdcStep start) m) k2 ↔
        x ∈ childrenOf m k2 ∨
        ∃ fp ∈ l, ∃ n, start.length < n ∧ n ≤ fp.length ∧
          k2 = fp.take (n - 1) ∧ x = fp.take n by
    rw [h matched H1 []]
    simp [childrenOf]
  intro l
  induction l with
  | nil =>
    intro _ m
    simp
  | cons fp fps ih =>
    intro hall m
    rw [List.foldl_cons,
      ih (fun g hg => hall g (List.mem_cons_of_mem fp hg)) (mdcStep start m fp),
      mdcStep_mem start fp m (hall fp (List.mem_cons_self fp fps)).1
        (hall fp (List.mem_cons_self fp fps)).2]
    constructor
    · rintro ((h | hpair) | ⟨g, hg, hrest⟩)
      · exact Or.inl h
      · exact Or.inr ⟨fp, List.mem_cons_self _ _, hpair⟩
      · exact Or.inr ⟨g, List.mem_cons_of_mem _ hg, hrest⟩
    · rintro (h | ⟨g, hg, hrest⟩)
      · exact Or.inl (Or.inl h)
      · rcases List.mem_cons.mp hg with rfl | hg2
        · exact Or.inl (Or.inr hrest)
        · exact Or.inr ⟨g, hg2, hrest⟩

/-! ## C3: `ensure_node` -/

/-- `hasDirNode` spelled out. -/
theorem hasDirNode_iff (t : FTree) (p : SegPath) :
    hasDirNode t p = true ↔ ∃ n ∈ t.nodes, n.isDir = true ∧ n.path = p := by
  unfold hasDirNode
  rw [List.any_eq_true]
  constructor
  · rintro ⟨n, hn, hcond⟩
    have hcond2 : n.isDir = true ∧ n.path = p := by simpa using hcond
    exact ⟨n, hn, hcond2.1, hcond2.2⟩
  · rintro ⟨n, hn, hd, rfl⟩
    exact ⟨n, hn, by simp [hd]⟩

/-- `hasDirNode` is monotone under node inclusion. -/
theorem hasDirNode_mono (t t' : FTree) (hsub : ∀ n ∈ t.nodes, n ∈ t'.nodes)
    (r : SegPath) (h : hasDirNode t r = true) : hasDirNode t' r = true := by
  rw [hasDirNode_iff] at *
  obtain ⟨n, hn, hd, hp⟩ := h
  exact ⟨n, hsub n hn, hd, hp⟩

/-- `ensure_node` on a path already in `node_map`. -/
theorem ensure_node_present (start : SegPath) (t : FTree) (p : SegPath)
    (h : p = start ∨ hasDirNode t p = true) : ensure_node start t p = t := by
  conv_lhs => unfold ensure_node
  rw [if_pos h]

/-- `ensure_node` on a missing path: ensure the parent, then append the
directory node. -/
theorem ensure_node_missing (start : SegPath) (t : FTree) (a : PyStr) (rest : List PyStr)
    (h : ¬((a :: rest) = start ∨ hasDirNode t (a :: rest) = true)) :
    ensure_node start t (a :: rest)
      = ⟨(ensure_node start t (a :: rest).dropLast).nodes
          ++ [⟨a :: rest, (a :: rest).dropLast, true, false⟩]⟩ := by
  conv_lhs => unfold ensure_node
  rw [if_neg h]

/-- In a well-formed tree, the ancestors (above the root) of every present
directory are present. -/
theorem WfTree_anc (start : SegPath) (t : FTree) (hw : WfTree start t)
    (q r : SegPath) (hdir : hasDirNode t q = true)
    (hr1 : start.isPrefixOf r = true) (hr2 : start.length < r.length)
    (hr3 : r.isPrefixOf q = true) : hasDirNode t r = true := by
  by_cases hrq : r = q
  · subst hrq
    exact hdir
  · have hpre : r <+: q.dropLast :=
      prefix_dropLast_of_ne r q ((segPrefix_iff r q).mp hr3) hrq
    obtain ⟨n, hn, hnd, hnp⟩ := (hasDirNode_iff t q).mp hdir
    obtain ⟨-, -, himp⟩ := hw n hn
    obtain ⟨hq1, hq2, hq3⟩ := himp hnd
    rw [hnp] at hq3
    rcases hq3 with hql | hqd
    · exfalso
      rw [hql] at hpre
      have := hpre.length_le
      omega
    · exact WfTree_anc start t hw q.dropLast r hqd hr1 hr2 ((segPrefix_iff _ _).mpr hpre)
  termination_by q.length
  decreasing_by
    rw [List.length_dropLast]
    have h1 := ((segPrefix_iff r q).mp hr3).length_le
    omega

/-- What `ensure_node` does, under well-formedness: it keeps every node,
adds only well-formed directory nodes on the chain from the root to `p`,
preserves well-formedness, and afterwards exactly the old directories plus
that chain are present. -/
theorem ensure_spec (start : SegPath) (p : SegPath) (t : FTree)
    (hw : WfTree start t)
    (hp : p = start ∨ (start.isPrefixOf p = true ∧ start.length < p.length)) :
    (∀ n ∈ t.nodes, n ∈ (ensure_node start t p).nodes)
    ∧ (∀ n ∈ (ensure_node start t p).nodes, n ∈ t.nodes ∨
        (n.parent = n.path.dropLast ∧ n.placeholder = false ∧ n.isDir = true ∧
         start.isPrefixOf n.path = true ∧ start.length < n.path.length ∧
         n.path.isPrefixOf p = true))
    ∧ WfTree start (ensure_node start t p)
    ∧ (∀ r, hasDirNode (ensure_node start t p) r = true ↔
        (hasDirNode t r = true ∨
         (start.isPrefixOf r = true ∧ start.length < r.length ∧
          r.isPrefixOf p = true))) := by
  by_cases hpres : p = start ∨ hasDirNode t p = true
  · rw [ensure_node_present start t p hpres]
    refine ⟨fun n hn => hn, fun n hn => Or.inl hn, hw, fun r => ?_⟩
    constructor
    · exact Or.inl
    · rintro (h | ⟨hr1, hr2, hr3⟩)
      · exact h
      · rcases hpres with rfl | hdir
        · exfalso
          have := ((segPrefix_iff r p).mp hr3).length_le
          omega
        · exact WfTree_anc start t hw p r hdir hr1 hr2 hr3
  · have hp2 : start.isPrefixOf p = true ∧ start.length < p.length := by
      rcases hp with rfl | h
      · exact absurd (Or.inl rfl) hpres
      · exact h
    cases hc : p with
    | nil =>
      rw [hc] at hp2
      simp at hp2
    | cons a rest =>
    subst hc
    rw [ensure_node_missing start t a rest hpres]
    have hpne : start ≠ a :: rest := by
      intro he
      rw [← he] at hp2
      omega
    have hpre : start <+: (a :: rest) := (segPrefix_iff _ _).mp hp2.1
    have hdlpre : start <+: (a :: rest).dropLast :=
      prefix_dropLast_of_ne start (a :: rest) hpre hpne
    have hparent : (a :: rest).dropLast = start ∨
        (start.isPrefixOf ((a :: rest).dropLast) = true ∧
         start.length < ((a :: rest).dropLast).length) := by
      by_cases hlen : start.length = (a :: rest).length - 1
      · left
        exact (hdlpre.eq_of_length (by rw [List.length_dropLast]; omega)).symm
      · right
        refine ⟨(segPrefix_iff _ _).mpr hdlpre, ?_⟩
        rw [List.length_dropLast]
        have := hp2.2
        omega
    obtain ⟨ih1, ih2, ih3, ih4⟩ :=
      ensure_spec start (a :: rest).dropLast t hw hparent
    have hdl_pre_p : (a :: rest).dropLast <+: (a :: rest) := List.dropLast_prefix _
    refine ⟨?_, ?_, ?_, ?_⟩
    · intro n hn
      exact List.mem_append_left _ (ih1 n hn)
    · intro n hn
      rcases List.mem_append.mp hn with hn2 | hn2
      · rcases ih2 n hn2 with h | ⟨ha, hb, hc, hd, he, hf⟩
        · exact Or.inl h
        · exact Or.inr ⟨ha, hb, hc, hd, he,
            (segPrefix_iff _ _).mpr (((segPrefix_iff _ _).mp hf).trans hdl_pre_p)⟩
      · rw [List.mem_singleton.mp hn2]
        exact Or.inr ⟨rfl, rfl, rfl, hp2.1, hp2.2, (segPrefix_iff _ _).mpr (by rfl)⟩
    · intro n hn
      rcases List.mem_append.mp hn with hn2 | hn2
      · obtain ⟨ha, hb, hc⟩ := ih3 n hn2
        refine ⟨ha, hb, fun hd => ?_⟩
        obtain ⟨he, hf, hg⟩ := hc hd
        refine ⟨he, hf, ?_⟩
        rcases hg with h | h
        · exact Or.inl h
        · exact Or.inr (hasDirNode_mono _ _ (fun m hm => List.mem_append_left _ hm) _ h)
      · rw [List.mem_singleton.mp hn2]
        refine ⟨rfl, rfl, fun _ => ⟨hp2.1, hp2.2, ?_⟩⟩
        rcases hparent with h | h
        · exact Or.inl h
        · refine Or.inr (hasDirNode_mono _ _ (fun m hm => List.mem_append_left _ hm) _ ?_)
          exact (ih4 _).mpr (Or.inr ⟨h.1, h.2, (segPrefix_iff _ _).mpr (by rfl)⟩)
    · intro r
      have hsplit : hasDirNode
          (⟨(ensure_node start t (a :: rest).dropLast).nodes
            ++ [⟨a :: rest, (a :: rest).dropLast, true, false⟩]⟩ : FTree) r = true ↔
          hasDirNode (ensure_node start t (a :: rest).dropLast) r = true ∨ r = a :: rest := by
        rw [hasDirNode_iff, hasDirNode_iff]
        constructor
        · rintro ⟨n, hn, hd, rfl⟩
          rcases List.mem_append.mp hn with hn2 | hn2
          · exact Or.inl ⟨n, hn2, hd, rfl⟩
          · rw [List.mem_singleton.mp hn2]
            exact Or.inr rfl
        · rintro (⟨n, hn, hd, rfl⟩ | rfl)
          · exact ⟨n, List.mem_append_left _ hn, hd, rfl⟩
          · exact ⟨⟨a :: rest, (a :: rest).dropLast, true, false⟩,
              List.mem_append_right _ (List.mem_singleton.mpr rfl), rfl, rfl⟩
      rw [hsplit, ih4 r]
      constructor
      · rintro ((h | ⟨h1, h2, h3⟩) | rfl)
        · exact Or.inl h
        · exact Or.inr ⟨h1, h2,
            (segPrefix_iff _ _).mpr (((segPrefix_iff _ _).mp h3).trans hdl_pre_p)⟩
        · exact Or.inr ⟨hp2.1, hp2.2, (segPrefix_iff _ _).mpr (by rfl)⟩
      · rintro (h | ⟨h1, h2, h3⟩)
        · exact Or.inl (Or.inl h)
        · by_cases hrp : r = a :: rest
          · exact Or.inr hrp
          · exact Or.inl (Or.inr ⟨h1, h2, (segPrefix_iff _ _).mpr
              (prefix_dropLast_of_ne r (a :: rest) ((segPrefix_iff _ _).mp h3) hrp)⟩)
  termination_by p.length
  decreasing_by
    show ((a :: rest).dropLast).length < List.length p
    rw [hc, List.length_dropLast]
    simp

/-! ## C3: `dir_children` entries -/

/-- Keys after `addChildEntry`. -/
theorem mem_keys_addChildEntry : ∀ (m : List (SegPath × List SegPath)) (k c x : SegPath),
    x ∈ (addChildEntry m k c).map Prod.fst ↔ x ∈ m.map Prod.fst ∨ x = k
  | [], k, c, x => by simp [addChildEntry]
  | (k1, cs) :: rest, k, c, x => by
    show x ∈ (if k1 = k then (k1, if cs.contains c then cs else cs ++ [c]) :: rest
        else (k1, cs) :: addChildEntry rest k c).map Prod.fst ↔ _
    by_cases h1 : k1 = k
    · subst h1
      simp [or_assoc]
      constructor
      · rintro (h | h)
        · exact Or.inl h
        · exact Or.inr (Or.inl h)
      · rintro (h | h | h)
        · exact Or.inl h
        · exact Or.inr h
        · subst h
          exact Or.inl rfl
    · rw [if_neg h1]
      simp only [List.map_cons, List.mem_cons, mem_keys_addChildEntry rest k c x]
      tauto

/-- `addChildEntry` keeps the keys duplicate-free. -/
theorem addChildEntry_keys_nodup : ∀ (m : List (SegPath × List SegPath)) (k c : SegPath),
    (m.map Prod.fst).Nodup → ((addChildEntry m k c).map Prod.fst).Nodup
  | [], k, c, _ => by simp [addChildEntry]
  | (k1, cs) :: rest, k, c, h => by
    rw [List.map_cons, List.nodup_cons] at h
    show ((if k1 = k then (k1, if cs.contains c then cs else cs ++ [c]) :: rest
        else (k1, cs) :: addChildEntry rest k c).map Prod.fst).Nodup
    by_cases h1 : k1 = k
    · rw [if_pos h1]
      rw [List.map_cons, List.nodup_cons]
      exact h
    · rw [if_neg h1]
      rw [List.map_cons, List.nodup_cons]
      refine ⟨fun hmem => ?_, addChildEntry_keys_nodup rest k c h.2⟩
      rcases (mem_keys_addChildEntry rest k c k1).mp hmem with h2 | h2
      · exact h.1 h2
      · exact h1 h2

/-- With duplicate-free keys, every entry is its own lookup. -/
theorem entry_eq_childrenOf : ∀ (m : List (SegPath × List SegPath)),
    (m.map Prod.fst).Nodup → ∀ e ∈ m, childrenOf m e.1 = e.2
  | [], _, e, he => absurd he (List.not_mem_nil e)
  | (k1, cs) :: rest, h, e, he => by
    rw [List.map_cons, List.nodup_cons] at h
    rcases List.mem_cons.mp he with rfl | he2
    · show (if k1 = k1 then cs else childrenOf rest k1) = cs
      rw [if_pos rfl]
    · show (if k1 = e.1 then cs else childrenOf rest e.1) = e.2
      have hne : ¬ k1 = e.1 := by
        intro hk
        apply h.1
        rw [hk]
        exact List.mem_map.mpr ⟨e, he2, rfl⟩
      rw [if_neg hne, entry_eq_childrenOf rest h.2 e he2]

/-- A nonempty lookup is an actual entry. -/
theorem childrenOf_mem_entry : ∀ (m : List (SegPath × List SegPath)) (k : SegPath),
    childrenOf m k ≠ [] → (k, childrenOf m k) ∈ m
  | [], k, h => absurd rfl h
  | (k1, cs) :: rest, k, h => by
    by_cases h1 : k1 = k
    · subst h1
      have hc : childrenOf ((k1, cs) :: rest) k1 = cs := by
        show (if k1 = k1 then cs else childrenOf rest k1) = cs
        rw [if_pos rfl]
      rw [hc]
      exact List.mem_cons_self _ _
    · have hc : childrenOf ((k1, cs) :: rest) k = childrenOf rest k := by
        show (if k1 = k then cs else childrenOf rest k) = childrenOf rest k
        rw [if_neg h1]
      rw [hc] at h ⊢
      exact List.mem_cons_of_mem _ (childrenOf_mem_entry rest k h)

/-- The chain walk keeps the keys duplicate-free. -/
theorem chainWalk_keys_nodup : ∀ (ps : List PyStr) (m : List (SegPath × List SegPath))
    (cur : SegPath), (m.map Prod.fst).Nodup →
    (((ps.foldl chainStep (m, cur)).1).map Prod.fst).Nodup
  | [], m, cur, h => h
  | p :: ps, m, cur, h => by
    rw [List.foldl_cons]
    exact chainWalk_keys_nodup ps _ (cur ++ [p])
      (addChildEntry_keys_nodup m cur (cur ++ [p]) h)

/-- `dir_children` has duplicate-free keys. -/
theorem mkDirChildren_keys_nodup (start : SegPath) (matched : List SegPath) :
    ((mkDirChildren start matched).map Prod.fst).Nodup := by
  unfold mkDirChildren
  suffices h : ∀ (l : List SegPath) (m : List (SegPath × List SegPath)),
      (m.map Prod.fst).Nodup → ((l.foldl (mdcStep start) m).map Prod.fst).Nodup by
    exact h matched [] (by simp)
  intro l
  induction l with
  | nil => exact fun m h => h
  | cons fp fps ih =>
    intro m h
    rw [List.foldl_cons]
    refine ih _ ?_
    unfold mdcStep
    by_cases hg : (!(start.isPrefixOf fp)) = true
    · rw [if_pos hg]
      exact h
    · rw [if_neg hg]
      exact addChildEntry_keys_nodup _ _ _ (chainWalk_keys_nodup _ m start h)

/-- Children lists in `dir_children` are never empty. -/
theorem addChildEntry_entries_nonempty : ∀ (m : List (SegPath × List SegPath))
    (k c : SegPath), (∀ e ∈ m, e.2 ≠ []) → ∀ e ∈ addChildEntry m k c, e.2 ≠ []
  | [], k, c, _, e, he => by
    rcases List.mem_singleton.mp he with rfl
    simp
  | (k1, cs) :: rest, k, c, h, e, he => by
    revert he
    show e ∈ (if k1 = k then (k1, if cs.contains c then cs else cs ++ [c]) :: rest
        else (k1, cs) :: addChildEntry rest k c) → _
    by_cases h1 : k1 = k
    · rw [if_pos h1]
      intro he
      rcases List.mem_cons.mp he with rfl | he2
      · show (if cs.contains c then cs else cs ++ [c]) ≠ []
        by_cases hc : cs.contains c
        · rw [if_pos hc]
          exact h _ (List.mem_cons_self _ _)
        · rw [if_neg hc]
          simp
      · exact h e (List.mem_cons_of_mem _ he2)
    · rw [if_neg h1]
      intro he
      rcases List.mem_cons.mp he with rfl | he2
      · exact h _ (List.mem_cons_self _ _)
      · exact addChildEntry_entries_nonempty rest k c
          (fun e2 he3 => h e2 (List.mem_cons_of_mem _ he3)) e he2

/-- The chain walk keeps children lists nonempty. -/
theorem chainWalk_entries_nonempty : ∀ (ps : List PyStr) (m : List (SegPath × List SegPath))
    (cur : SegPath), (∀ e ∈ m, e.2 ≠ []) →
    ∀ e ∈ (ps.foldl chainStep (m, cur)).1, e.2 ≠ []
  | [], m, cur, h => h
  | p :: ps, m, cur, h => by
    rw [List.foldl_cons]
    exact chainWalk_entries_nonempty ps _ (cur ++ [p])
      (addChildEntry_entries_nonempty m cur (cur ++ [p]) h)

/-- Every `dir_children` entry has a nonempty child set. -/
theorem mkDirChildren_entries_nonempty (start : SegPath) (matched : List SegPath) :
    ∀ e ∈ mkDirChildren start matched, e.2 ≠ [] := by
  unfold mkDirChildren
  suffices h : ∀ (l : List SegPath) (m : List (SegPath × List SegPath)),
      (∀ e ∈ m, e.2 ≠ []) → ∀ e ∈ l.foldl (mdcStep start) m, e.2 ≠ [] by
    exact h matched [] (by simp)
  intro l
  induction l with
  | nil => exact fun m h => h
  | cons fp fps ih =>
    intro m h
    rw [List.foldl_cons]
    refine ih _ ?_
    unfold mdcStep
    by_cases hg : (!(start.isPrefixOf fp)) = true
    · rw [if_pos hg]
      exact h
    · rw [if_neg hg]
      exact addChildEntry_entries_nonempty _ _ _ (chainWalk_entries_nonempty _ m start h)

/-- Every child recorded in a `dir_children` entry is a chain pair of a
matched file. -/
theorem mkDirChildren_entry_pairs (start : SegPath) (matched : List SegPath)
    (H1 : ∀ fp ∈ matched, start.isPrefixOf fp = true ∧ fp ≠ start) :
    ∀ e ∈ mkDirChildren start matched, ∀ c ∈ e.2, pairIn start matched e.1 c := by
  intro e he c hc
  have hnd := mkDirChildren_keys_nodup start matched
  have heq := entry_eq_childrenOf (mkDirChildren start matched) hnd e he
  rw [← heq] at hc
  exact (mkDirChildren_mem start matched H1 e.1 c).mp hc

/-! ## C3: the build fold -/

/-- A prefix of a different list is strictly shorter. -/
theorem prefix_length_lt (a b : SegPath) (h : a <+: b) (hne : a ≠ b) :
    a.length < b.length := by
  rcases Nat.lt_or_ge a.length b.length with h1 | h1
  · exact h1
  · exact absurd (h.eq_of_length (le_antisymm h.length_le h1)) hne

/-- `dropLast` of a `take`. -/
theorem dropLast_take (l : List PyStr) (n : Nat) (h : n ≤ l.length) :
    (l.take n).dropLast = l.take (n - 1) := by
  rw [List.dropLast_eq_take, List.take_take, List.length_take]
  congr 1
  omega

/-- `ensure_node` never removes a node. -/
theorem ensure_node_subset (start : SegPath) (p : SegPath) (t : FTree) :
    ∀ n ∈ t.nodes, n ∈ (ensure_node start t p).nodes := by
  by_cases hpres : p = start ∨ hasDirNode t p = true
  · rw [ensure_node_present start t p hpres]
    exact fun n hn => hn
  · cases hc : p with
    | nil =>
      have he : ensure_node start t [] = t := by
        conv_lhs => unfold ensure_node
        rw [if_neg (hc ▸ hpres)]
      rw [he]
      exact fun n hn => hn
    | cons a rest =>
      rw [ensure_node_missing start t a rest (hc ▸ hpres)]
      intro n hn
      exact List.mem_append_left _ (ensure_node_subset start (a :: rest).dropLast t n hn)
  termination_by p.length
  decreasing_by
    rw [List.length_dropLast]
    simp

/-- A freshly ensured directory is present. -/
theorem ensure_node_creates (start : SegPath) (t : FTree) (c : SegPath)
    (h : start.length < c.length) : hasDirNode (ensure_node start t c) c = true := by
  by_cases hpres : c = start ∨ hasDirNode t c = true
  · rw [ensure_node_present _ _ _ hpres]
    rcases hpres with rfl | hd
    · omega
    · exact hd
  · cases c with
    | nil => simp at h
    | cons a rest =>
      rw [ensure_node_missing start t a rest hpres, hasDirNode_iff]
      exact ⟨⟨a :: rest, (a :: rest).dropLast, true, false⟩,
        List.mem_append_right _ (by simp), rfl, rfl⟩

/-- One child step never removes a node. -/
theorem childStep_subset (start : SegPath) (isdir : SegPath → Bool) (k : SegPath)
    (t : FTree) (c : SegPath) : ∀ n ∈ t.nodes, n ∈ (childStep start isdir k t c).nodes := by
  intro n hn
  unfold childStep
  by_cases h : isdir c = true
  · rw [if_pos h]
    exact ensure_node_subset start c t n hn
  · rw [if_neg h]
    exact List.mem_append_left _ hn

/-- The child loop never removes a node. -/
theorem childFold_subset (start : SegPath) (isdir : SegPath → Bool) (k : SegPath) :
    ∀ (cs : List SegPath) (t : FTree),
    ∀ n ∈ t.nodes, n ∈ (cs.foldl (childStep start isdir k) t).nodes
  | [], _ => fun _ hn => hn
  | c :: cs, t => by
    rw [List.foldl_cons]
    intro n hn
    exact childFold_subset start isdir k cs _ n (childStep_subset start isdir k t c n hn)

/-- One entry step never removes a node. -/
theorem buildStep_subset (start : SegPath) (isdir : SegPath → Bool) (t : FTree)
    (kc : SegPath × List SegPath) :
    ∀ n ∈ t.nodes, n ∈ (buildStep start isdir t kc).nodes := by
  intro n hn
  unfold buildStep
  exact childFold_subset _ _ _ _ _ n (ensure_node_subset start kc.1 t n hn)

/-- The entry loop never removes a node. -/
theorem buildFold_subset (start : SegPath) (isdir : SegPath → Bool) :
    ∀ (items : List (SegPath × List SegPath)) (t : FTree),
    ∀ n ∈ t.nodes, n ∈ (items.foldl (buildStep start isdir) t).nodes
  | [], _ => fun _ hn => hn
  | kc :: items, t => by
    rw [List.foldl_cons]
    intro n hn
    exact buildFold_subset start isdir items _ n (buildStep_subset start isdir t kc n hn)

/-- Facts about the child of a recorded pair. -/
theorem pairIn_child_facts (start : SegPath) (matched : List SegPath)
    (H1 : ∀ fp ∈ matched, start.isPrefixOf fp = true ∧ fp ≠ start)
    (k c : SegPath) (h : pairIn start matched k c) :
    start.isPrefixOf c = true ∧ start.length < c.length ∧ k = c.dropLast ∧
    ∃ fp ∈ matched, c.isPrefixOf fp = true := by
  obtain ⟨fp, hfp, n, hn1, hn2, hk, hc⟩ := h
  have hpre : start <+: fp := (segPrefix_iff _ _).mp (H1 fp hfp).1
  have hclen : c.length = n := by
    rw [hc, List.length_take]
    omega
  refine ⟨?_, by omega, ?_, fp, hfp, ?_⟩
  · rw [hc]
    exact (segPrefix_iff _ _).mpr (List.prefix_take_iff.mpr ⟨hpre, by omega⟩)
  · rw [hk, hc, dropLast_take fp n hn2]
  · rw [hc]
    exact (segPrefix_iff _ _).mpr (List.take_prefix n fp)

/-- Facts about the key of a recorded pair. -/
theorem pairIn_key_facts (start : SegPath) (matched : List SegPath)
    (k c : SegPath) (h : pairIn start matched k c)
    (hpre0 : ∀ fp ∈ matched, start.isPrefixOf fp = true) :
    (k = start ∨ (start.isPrefixOf k = true ∧ start.length < k.length))
    ∧ ∃ fp ∈ matched, k.isPrefixOf fp = true ∧ k.length < fp.length := by
  obtain ⟨fp, hfp, n, hn1, hn2, hk, hc⟩ := h
  have hpre : start <+: fp := (segPrefix_iff _ _).mp (hpre0 fp hfp)
  have hklen : k.length = n - 1 := by
    rw [hk, List.length_take]
    omega
  constructor
  · by_cases hn : n - 1 = start.length
    · left
      rw [hk, hn]
      exact (List.prefix_iff_eq_take.mp hpre).symm
    · right
      refine ⟨(segPrefix_iff _ _).mpr ?_, by omega⟩
      rw [hk]
      exact List.prefix_take_iff.mpr ⟨hpre, by omega⟩
  · refine ⟨fp, hfp, (segPrefix_iff _ _).mpr ?_, by omega⟩
    rw [hk]
    exact List.take_prefix _ _

/-- One child step preserves the construction invariant. -/
theorem childStep_inv (start : SegPath) (matched : List SegPath) (isdir : SegPath → Bool)
    (H1 : ∀ fp ∈ matched, start.isPrefixOf fp = true ∧ fp ≠ start)
    (H2 : ∀ fp ∈ matched, isdir fp = false)
    (H3 : ∀ fp ∈ matched, ∀ n, n < fp.length → start.length < n → isdir (fp.take n) = true)
    (k c : SegPath) (hkc : pairIn start matched k c) (t : FTree)
    (hinv : BuildInv start matched t) :
    BuildInv start matched (childStep start isdir k t c) := by
  obtain ⟨hw, hdirS, hfileS⟩ := hinv
  obtain ⟨hc1, hc2, hc3, fp, hfp, hc4⟩ := pairIn_child_facts start matched H1 k c hkc
  unfold childStep
  by_cases hdir : isdir c = true
  · rw [if_pos hdir]
    obtain ⟨e1, e2, e3, e4⟩ := ensure_spec start c t hw (Or.inr ⟨hc1, hc2⟩)
    have hcfp : c ≠ fp := by
      intro he
      rw [he, H2 fp hfp] at hdir
      exact Bool.noConfusion hdir
    have hcltfp : c.length < fp.length :=
      prefix_length_lt c fp ((segPrefix_iff _ _).mp hc4) hcfp
    refine ⟨e3, ?_, ?_⟩
    · intro r hr
      rcases (e4 r).mp hr with h | ⟨h1, h2, h3⟩
      · exact hdirS r h
      · refine ⟨fp, hfp, h1, h2,
          (segPrefix_iff _ _).mpr
            (((segPrefix_iff _ _).mp h3).trans ((segPrefix_iff _ _).mp hc4)), ?_⟩
        intro he
        have hle := ((segPrefix_iff r c).mp h3).length_le
        rw [he] at hle
        omega
    · intro n hn hnd
      rcases e2 n hn with h | ⟨_, _, hdirn, _⟩
      · exact hfileS n h hnd
      · rw [hdirn] at hnd
        exact Bool.noConfusion hnd
  · rw [if_neg hdir]
    have hceq : c = fp := by
      by_contra hne
      have hlt : c.length < fp.length :=
        prefix_length_lt c fp ((segPrefix_iff _ _).mp hc4) hne
      have htk : fp.take c.length = c := (List.prefix_iff_eq_take.mp
        ((segPrefix_iff _ _).mp hc4)).symm
      have := H3 fp hfp c.length hlt hc2
      rw [htk] at this
      exact hdir this
    refine ⟨?_, ?_, ?_⟩
    · intro n hn
      rcases List.mem_append.mp hn with hn2 | hn2
      · obtain ⟨a1, a2, a3⟩ := hw n hn2
        refine ⟨a1, a2, fun hd => ?_⟩
        obtain ⟨b1, b2, b3⟩ := a3 hd
        exact ⟨b1, b2, b3.imp id
          (hasDirNode_mono _ _ (fun m hm => List.mem_append_left _ hm) _)⟩
      · rw [List.mem_singleton.mp hn2]
        exact ⟨hc3, rfl, fun hd => Bool.noConfusion hd⟩
    · intro r hr
      have hred : hasDirNode t r = true := by
        rcases (hasDirNode_iff _ r).mp hr with ⟨n, hn, hd, rfl⟩
        rcases List.mem_append.mp hn with hn2 | hn2
        · exact (hasDirNode_iff t n.path).mpr ⟨n, hn2, hd, rfl⟩
        · rw [List.mem_singleton.mp hn2] at hd
          exact Bool.noConfusion hd
      exact hdirS r hred
    · intro n hn hnd
      rcases List.mem_append.mp hn with hn2 | hn2
      · exact hfileS n hn2 hnd
      · rw [List.mem_singleton.mp hn2]
        show c ∈ matched
        rw [hceq]
        exact hfp

/-- The child loop preserves the construction invariant. -/
theorem childFold_inv (start : SegPath) (matched : List SegPath) (isdir : SegPath → Bool)
    (H1 : ∀ fp ∈ matched, start.isPrefixOf fp = true ∧ fp ≠ start)
    (H2 : ∀ fp ∈ matched, isdir fp = false)
    (H3 : ∀ fp ∈ matched, ∀ n, n < fp.length → start.length < n → isdir (fp.take n) = true)
    (k : SegPath) :
    ∀ (cs : List SegPath), (∀ c ∈ cs, pairIn start matched k c) →
    ∀ t, BuildInv start matched t →
      BuildInv start matched (cs.foldl (childStep start isdir k) t)
  | [], _, _, h => h
  | c :: cs, hall, t, h => by
    rw [List.foldl_cons]
    exact childFold_inv start matched isdir H1 H2 H3 k cs
      (fun c2 hc2 => hall c2 (List.mem_cons_of_mem _ hc2)) _
      (childStep_inv start matched isdir H1 H2 H3 k c
        (hall c (List.mem_cons_self _ _)) t h)

/-- One entry step preserves the construction invariant. -/
theorem buildStep_inv (start : SegPath) (matched : List SegPath) (isdir : SegPath → Bool)
    (H1 : ∀ fp ∈ matched, start.isPrefixOf fp = true ∧ fp ≠ start)
    (H2 : ∀ fp ∈ matched, isdir fp = false)
    (H3 : ∀ fp ∈ matched, ∀ n, n < fp.length → start.length < n → isdir (fp.take n) = true)
    (kc : SegPath × List SegPath)
    (hkc : ∀ c ∈ kc.2, pairIn start matched kc.1 c) (hne : kc.2 ≠ [])
    (t : FTree) (hinv : BuildInv start matched t) :
    BuildInv start matched (buildStep start isdir t kc) := by
  obtain ⟨c0, hc0⟩ := List.exists_mem_of_ne_nil kc.2 hne
  obtain ⟨hkey, fpk, hfpk, hk1, hk2⟩ :=
    pairIn_key_facts start matched kc.1 c0 (hkc c0 hc0) (fun fp hfp => (H1 fp hfp).1)
  obtain ⟨hw, hdirS, hfileS⟩ := hinv
  obtain ⟨e1, e2, e3, e4⟩ := ensure_spec start kc.1 t hw hkey
  have hinv2 : BuildInv start matched (ensure_node start t kc.1) := by
    refine ⟨e3, ?_, ?_⟩
    · intro r hr
      rcases (e4 r).mp hr with h | ⟨h1, h2, h3⟩
      · exact hdirS r h
      · refine ⟨fpk, hfpk, h1, h2,
          (segPrefix_iff _ _).mpr
            (((segPrefix_iff _ _).mp h3).trans ((segPrefix_iff _ _).mp hk1)), ?_⟩
        intro he
        have hle := ((segPrefix_iff r kc.1).mp h3).length_le
        rw [he] at hle
        omega
    · intro n hn hnd
      rcases e2 n hn with h | ⟨_, _, hdirn, _⟩
      · exact hfileS n h hnd
      · rw [hdirn] at hnd
        exact Bool.noConfusion hnd
  unfold buildStep
  refine childFold_inv start matched isdir H1 H2 H3 kc.1 (sortSegPaths kc.2)
    (fun c hc => hkc c ?_) _ hinv2
  exact (pySortedBy_perm _ kc.2).mem_iff.mp hc

/-- The entry loop preserves the construction invariant. -/
theorem buildFold_inv (start : SegPath) (matched : List SegPath) (isdir : SegPath → Bool)
    (H1 : ∀ fp ∈ matched, start.isPrefixOf fp = true ∧ fp ≠ start)
    (H2 : ∀ fp ∈ matched, isdir fp = false)
    (H3 : ∀ fp ∈ matched, ∀ n, n < fp.length → start.length < n → isdir (fp.take n) = true) :
    ∀ (items : List (SegPath × List SegPath)),
    (∀ e ∈ items, (∀ c ∈ e.2, pairIn start matched e.1 c) ∧ e.2 ≠ []) →
    ∀ t, BuildInv start matched t →
      BuildInv start matched (items.foldl (buildStep start isdir) t)
  | [], _, _, h => h
  | kc :: items, hall, t, h => by
    rw [List.foldl_cons]
    exact buildFold_inv start matched isdir H1 H2 H3 items
      (fun e he => hall e (List.mem_cons_of_mem _ he)) _
      (buildStep_inv start matched isdir H1 H2 H3 kc
        (hall kc (List.mem_cons_self _ _)).1 (hall kc (List.mem_cons_self _ _)).2 t h)

/-- Every child of a processed entry ends in the tree: a directory child
as a directory node, any other as a file leaf. -/
theorem childFold_hits (start : SegPath) (isdir : SegPath → Bool) (k : SegPath) :
    ∀ (cs : List SegPath) (t : FTree) (c : SegPath), c ∈ cs → start.length < c.length →
    (isdir c = true → hasDirNode (cs.foldl (childStep start isdir k) t) c = true)
    ∧ (isdir c = false → ∃ n ∈ (cs.foldl (childStep start isdir k) t).nodes,
        n.isDir = false ∧ n.path = c)
  | [], _, c, hc, _ => absurd hc (List.not_mem_nil c)
  | c0 :: cs, t, c, hc, hlen => by
    rw [List.foldl_cons]
    rcases List.mem_cons.mp hc with rfl | hc2
    · constructor
      · intro hd
        refine hasDirNode_mono _ _
          (fun m hm => childFold_subset start isdir k cs _ m hm) c ?_
        unfold childStep
        rw [if_pos hd]
        exact ensure_node_creates start t c hlen
      · intro hd
        have hnode : (⟨c, k, false, false⟩ : FNode) ∈ (childStep start isdir k t c).nodes := by
          unfold childStep
          rw [if_neg (by simp [hd])]
          exact List.mem_append_right _ (by simp)
        exact ⟨⟨c, k, false, false⟩, childFold_subset start isdir k cs _ _ hnode, rfl, rfl⟩
    · exact childFold_hits start isdir k cs _ c hc2 hlen

/-- Every child of a `dir_children` entry ends in the final tree. -/
theorem buildFold_hits (start : SegPath) (isdir : SegPath → Bool) :
    ∀ (items : List (SegPath × List SegPath)) (t : FTree)
    (k : SegPath) (cs : List SegPath) (c : SegPath),
    (k, cs) ∈ items → c ∈ cs → start.length < c.length →
    (isdir c = true → hasDirNode (items.foldl (buildStep start isdir) t) c = true)
    ∧ (isdir c = false → ∃ n ∈ (items.foldl (buildStep start isdir) t).nodes,
        n.isDir = false ∧ n.path = c)
  | [], _, _, _, c, hmem, _, _ => absurd hmem (List.not_mem_nil _)
  | kc :: items, t, k, cs, c, hmem, hc, hlen => by
    rw [List.foldl_cons]
    rcases List.mem_cons.mp hmem with heq | hmem2
    · have hsc : c ∈ sortSegPaths cs := (pySortedBy_perm _ cs).mem_iff.mpr hc
      constructor
      · intro hd
        refine hasDirNode_mono _ _
          (fun m hm => buildFold_subset start isdir items _ m hm) c ?_
        rw [← heq]
        unfold buildStep
        exact (childFold_hits start isdir k (sortSegPaths cs) _ c hsc hlen).1 hd
      · intro hd
        obtain ⟨n, hn, hnd, hnp⟩ := (childFold_hits start isdir k (sortSegPaths cs)
          (ensure_node start t k) c hsc hlen).2 hd
        refine ⟨n, buildFold_subset start isdir items _ n ?_, hnd, hnp⟩
        rw [← heq]
        unfold buildStep
        exact hn
    · exact buildFold_hits start isdir items _ k cs c hmem2 hc hlen

/-- C3: for matched file paths strictly under the root — none a directory
on disk, with every strictly intermediate prefix a directory on disk, as
`_scan_for_term`'s output is — `build_filtered_tree` builds exactly the
ancestor-directory chains: a directory node exists for precisely the
proper ancestors of matched files strictly below the root, the file
leaves are exactly the matched files, and every node is created already
Loaded — no placeholder, hanging under its path's parent directory. -/
theorem claim_C3_build_filtered_tree (start : SegPath) (matched : List SegPath)
    (isdir : SegPath → Bool)
    (H1 : ∀ fp ∈ matched, start.isPrefixOf fp = true ∧ fp ≠ start)
    (H2 : ∀ fp ∈ matched, isdir fp = false)
    (H3 : ∀ fp ∈ matched, ∀ n, n < fp.length → start.length < n →
      isdir (fp.take n) = true) :
    (∀ r, hasDirNode (build_filtered_tree start matched isdir) r = true ↔
      ∃ fp ∈ matched, start.isPrefixOf r = true ∧ start.length < r.length ∧
        r.isPrefixOf fp = true ∧ r ≠ fp)
    ∧ (∀ p, (∃ n ∈ (build_filtered_tree start matched isdir).nodes,
        n.isDir = false ∧ n.path = p) ↔ p ∈ matched)
    ∧ (∀ n ∈ (build_filtered_tree start matched isdir).nodes,
        n.placeholder = false ∧ n.parent = n.path.dropLast) := by
  have hentries : ∀ e ∈ mkDirChildren start matched,
      (∀ c ∈ e.2, pairIn start matched e.1 c) ∧ e.2 ≠ [] :=
    fun e he => ⟨mkDirChildren_entry_pairs start matched H1 e he,
      mkDirChildren_entries_nonempty start matched e he⟩
  have hinv0 : BuildInv start matched (⟨[]⟩ : FTree) := by
    refine ⟨fun n hn => absurd hn (List.not_mem_nil n), fun r hr => ?_,
      fun n hn _ => absurd hn (List.not_mem_nil n)⟩
    rw [hasDirNode_iff] at hr
    obtain ⟨n, hn, -, -⟩ := hr
    exact absurd hn (List.not_mem_nil n)
  have hinv : BuildInv start matched (build_filtered_tree start matched isdir) := by
    unfold build_filtered_tree
    exact buildFold_inv start matched isdir H1 H2 H3 _ hentries _ hinv0
  obtain ⟨hw, hdirS, hfileS⟩ := hinv
  refine ⟨fun r => ⟨fun h => hdirS r h, fun h => ?_⟩,
    fun p => ⟨fun ⟨n, hn, hnd, hnp⟩ => hnp ▸ hfileS n hn hnd, fun hp => ?_⟩,
    fun n hn => ⟨(hw n hn).2.1, (hw n hn).1⟩⟩
  · obtain ⟨fp, hfp, h1, h2, h3, h4⟩ := h
    have hpre : r <+: fp := (segPrefix_iff _ _).mp h3
    have hrtake : r = fp.take r.length := List.prefix_iff_eq_take.mp hpre
    have hrlen : r.length ≤ fp.length := hpre.length_le
    have hdltake : r.dropLast = fp.take (r.length - 1) := by
      conv_lhs => rw [hrtake]
      exact dropLast_take fp r.length hrlen
    have hpair : pairIn start matched r.dropLast r :=
      ⟨fp, hfp, r.length, h2, hrlen, hdltake, hrtake⟩
    have hmem : r ∈ childrenOf (mkDirChildren start matched) r.dropLast :=
      (mkDirChildren_mem start matched H1 _ r).mpr hpair
    have hne2 : childrenOf (mkDirChildren start matched) r.dropLast ≠ [] := by
      intro he
      rw [he] at hmem
      exact absurd hmem (List.not_mem_nil r)
    have hentry := childrenOf_mem_entry _ _ hne2
    have hdir : isdir r = true := by
      have hlt : r.length < fp.length := prefix_length_lt r fp hpre h4
      have hh := H3 fp hfp r.length hlt h2
      rw [← hrtake] at hh
      exact hh
    unfold build_filtered_tree
    exact (buildFold_hits start isdir (mkDirChildren start matched) ⟨[]⟩
      r.dropLast _ r hentry hmem h2).1 hdir
  · have h1 := (H1 p hp).1
    have h2 := (H1 p hp).2
    have hplen : start.length < p.length :=
      prefix_length_lt start p ((segPrefix_iff _ _).mp h1) (fun he => h2 he.symm)
    have hpair : pairIn start matched p.dropLast p :=
      ⟨p, hp, p.length, hplen, le_refl _, by rw [List.dropLast_eq_take],
        (List.take_length p).symm⟩
    have hmem : p ∈ childrenOf (mkDirChildren start matched) p.dropLast :=
      (mkDirChildren_mem start matched H1 _ p).mpr hpair
    have hne2 : childrenOf (mkDirChildren start matched) p.dropLast ≠ [] := by
      intro he
      rw [he] at hmem
      exact absurd hmem (List.not_mem_nil p)
    have hentry := childrenOf_mem_entry _ _ hne2
    unfold build_filtered_tree
    exact (buildFold_hits start isdir (mkDirChildren start matched) ⟨[]⟩
      p.dropLast _ p hentry hmem hplen).2 (H2 p hp)

/-- Witness for C3 on a two-file workspace under root `r`: the ancestor
directory `r/a` of the matched file `r/a/x.yml` gets a directory node. -/
theorem claim_C3_witness :
    hasDirNode
      (build_filtered_tree ["r".data]
        [["r".data, "a".data, "x.yml".data], ["r".data, "y.yml".data]]
        (fun p => p == ["r".data] || p == ["r".data, "a".data]))
      ["r".data, "a".data] = true :=
  ((claim_C3_build_filtered_tree ["r".data]
      [["r".data, "a".data, "x.yml".data], ["r".data, "y.yml".data]]
      (fun p => p == ["r".data] || p == ["r".data, "a".data])
      (by decide) (by decide) (by decide)).1 ["r".data, "a".data]).mpr
    ⟨["r".data, "a".data, "x.yml".data], by decide, by decide, by decide,
      by decide, by decide⟩

end Cerebros
